import Mathlib

/-!
Verification of the StakTrakr spot-price archive scripts
(`update-seed-data.py` and `poller.py`) against their specification.

The Python code is shallowly embedded: JSON price records become the
structure `Entry` (rationals stand in for the scripts' IEEE doubles),
the per-year archive files become a function from year string to record
list, Python dicts become association lists with dict semantics, and
Python's stable `list.sort` becomes `List.insertionSort` (any two stable
sorts by the same total transitive relation agree extensionally).
-/

set_option linter.unusedVariables false

namespace StakTrakr

/-- A price record as stored in the JSON files:
`{spot, metal, source, provider, timestamp}`. -/
structure Entry where
  spot : ℚ
  metal : String
  source : String
  provider : String
  timestamp : String
deriving DecidableEq, Repr

/-- The merge identity key `(entry["timestamp"], entry["metal"])`. -/
def Entry.key (e : Entry) : String × String := (e.timestamp, e.metal)

/-- Python's character slice `s[:n]`. -/
def strTake (s : String) (n : Nat) : String := (s.toList.take n).asString

/-- The year a record is filed under: `entry["timestamp"][:4]`. -/
def Entry.year (e : Entry) : String := strTake e.timestamp 4

/-- Python string comparison: lexicographic on the code-point sequence
(modelled on the character list). -/
def strLT (a b : String) : Prop := a.toList < b.toList

/-- Python string `<=` on the code-point sequence. -/
def strLE (a b : String) : Prop := a.toList ≤ b.toList

instance : DecidableRel strLT := fun a b =>
  inferInstanceAs (Decidable (_ < _))

instance : DecidableRel strLE := fun a b =>
  inferInstanceAs (Decidable (_ ≤ _))

instance : IsTotal String strLE := ⟨fun a b => le_total a.toList b.toList⟩

instance : IsTrans String strLE := ⟨fun _ _ _ h₁ h₂ => le_trans h₁ h₂⟩

instance : IsAntisymm String strLE :=
  ⟨fun a b h₁ h₂ => by
    cases a; cases b
    exact congrArg String.mk (le_antisymm h₁ h₂)⟩

/-- Python tuple comparison on `(timestamp, metal)` pairs of strings:
lexicographic, first component strict, tie broken by the second. -/
def keyLE (a b : String × String) : Prop :=
  strLT a.1 b.1 ∨ (a.1 = b.1 ∧ strLE a.2 b.2)

instance : DecidableRel keyLE := fun a b =>
  inferInstanceAs (Decidable (_ ∨ _))

/-- The sort order of `merged.sort(key=lambda e: (e["timestamp"], e["metal"]))`. -/
def entryLE (a b : Entry) : Prop := keyLE a.key b.key

instance : DecidableRel entryLE := fun a b =>
  inferInstanceAs (Decidable (keyLE _ _))

instance : IsTotal Entry entryLE :=
  ⟨fun a b => by
    have tinj : ∀ {x y : String}, x.toList = y.toList → x = y :=
      fun {x y} h => by cases x; cases y; exact congrArg String.mk h
    rcases lt_trichotomy a.key.1.toList b.key.1.toList with h | h | h
    · exact Or.inl (Or.inl h)
    · rcases le_total a.key.2.toList b.key.2.toList with h2 | h2
      · exact Or.inl (Or.inr ⟨tinj h, h2⟩)
      · exact Or.inr (Or.inr ⟨tinj h.symm, h2⟩)
    · exact Or.inr (Or.inl h)⟩

instance : IsTrans Entry entryLE :=
  ⟨fun a b c h₁ h₂ => by
    rcases h₁ with h₁ | ⟨h₁, h₁'⟩
    · rcases h₂ with h₂ | ⟨h₂, _⟩
      · exact Or.inl (lt_trans h₁ h₂)
      · exact Or.inl (h₂ ▸ h₁)
    · rcases h₂ with h₂ | ⟨h₂, h₂'⟩
      · exact Or.inl (h₁ ▸ h₂)
      · exact Or.inr ⟨h₁.trans h₂, le_trans h₁' h₂'⟩⟩

/-- The re-sort step `merged.sort(key=lambda e: (e["timestamp"], e["metal"]))`
(Python's sort is stable; so is insertion sort). -/
def sortEntries (l : List Entry) : List Entry := l.insertionSort entryLE

/-- Dict lookup `d[k]` / `k in d`, as an option. -/
def dlookup {κ β : Type} [DecidableEq κ] (d : List (κ × β)) (k : κ) : Option β :=
  (d.find? (fun p => decide (p.1 = k))).map Prod.snd

/-- Dict assignment `d[k] = v`: update in place when the key exists
(keeping its position), otherwise append. -/
def dictInsert {κ β : Type} [DecidableEq κ] (d : List (κ × β)) (k : κ) (v : β) : List (κ × β) :=
  if d.any (fun p => decide (p.1 = k)) then
    d.map (fun p => if p.1 = k then (k, v) else p)
  else d ++ [(k, v)]

/-- Python `d.pop(k, default)`: the stored value (if any) and the dict with
the binding for `k` removed. -/
def popKey {κ β : Type} [DecidableEq κ] : List (κ × β) → κ → Option β × List (κ × β)
  | [], _ => (none, [])
  | p :: ps, k =>
      if p.1 = k then (some p.2, ps)
      else ((popKey ps k).1, p :: (popKey ps k).2)

/-- The yearly seed layer of the data directory: each year string names a
`spot-history-{year}.json` file holding a list of records (`load_year_file`
returns `[]` for a missing file). -/
def YearStore : Type := String → List Entry

/-- The dict `{(e["timestamp"], e["metal"]): e for e in entries}` — later entries
win, insertion order is first occurrence. -/
def buildNewKeys (entries : List Entry) : List ((String × String) × Entry) :=
  entries.foldl (fun d e => dictInsert d e.key e) []

/-- The list `[new_keys.pop((e["timestamp"], e["metal"]), e) for e in existing]`,
threading the mutated dict. -/
def mapPop : List Entry → List ((String × String) × Entry) →
    List Entry × List ((String × String) × Entry)
  | [], d => ([], d)
  | e :: es, d =>
      let p := popKey d e.key
      let q := mapPop es p.2
      (p.1.getD e :: q.1, q.2)

/-- The `to_add` list: the input entries whose `(timestamp, metal)` key is not
among the existing keys. -/
def newForYear (existing entries : List Entry) : List Entry :=
  entries.filter (fun e => decide (e.key ∉ existing.map Entry.key))

/-- The per-year body of the additive branch of `merge_into_year_files`:
`none` when no truly-new entries remain (the file is then not touched),
otherwise the sorted merged list and the count added. -/
def processYearAdditive (existing entries : List Entry) : Option (List Entry × Nat) :=
  if (newForYear existing entries).isEmpty then none
  else some (sortEntries (existing ++ newForYear existing entries),
    (newForYear existing entries).length)

/-- The per-year body of the replacing (`overwrite=True`) branch of
`merge_into_year_files`: replace keyed matches, append the remainder,
report the raw input count. -/
def processYearOverwrite (existing entries : List Entry) : List Entry × Nat :=
  let d := buildNewKeys entries
  let md := mapPop existing d
  (sortEntries (md.1 ++ md.2.map Prod.snd), entries.length)

/-- The group `by_year[year]`: the input entries whose timestamp year is `y`,
in input order. -/
def entriesForYear (entries : List Entry) (y : String) : List Entry :=
  entries.filter (fun e => decide (e.year = y))

/-- The sorted, duplicate-free list of years appearing in the input
(the iteration order `sorted(by_year.items())`). -/
def yearsOf (entries : List Entry) : List String :=
  ((entries.map Entry.year).dedup).insertionSort strLE

/-- One iteration of the year loop in `merge_into_year_files`:
the merged list to save (if a save happens at all) and the count recorded
in `results[year]`. -/
def mergeYearStep (store : YearStore) (new_entries : List Entry) (overwrite : Bool)
    (y : String) : Option (List Entry) × Nat :=
  let entries := entriesForYear new_entries y
  let existing := store y
  if overwrite then
    let r := processYearOverwrite existing entries
    (some r.1, r.2)
  else
    match processYearAdditive existing entries with
    | none => (none, 0)
    | some r => (some r.1, r.2)

/-- What one call of `merge_into_year_files` does to the world: the
`save_year_file` calls it performs, in order, and the returned
`{year: count_added}` mapping (as an ordered association list). -/
structure MergeOut where
  writes : List (String × List Entry)
  results : List (String × Nat)
deriving DecidableEq, Repr

/-- The merge engine `merge_into_year_files(data_dir, new_entries, dry_run, overwrite)`. -/
def merge_into_year_files (store : YearStore) (new_entries : List Entry)
    (dry_run : Bool) (overwrite : Bool) : MergeOut :=
  let years := yearsOf new_entries
  { writes := if dry_run then [] else
      years.filterMap (fun y =>
        ((mergeYearStep store new_entries overwrite y).1).map (fun m => (y, m))),
    results := years.map (fun y => (y, (mergeYearStep store new_entries overwrite y).2)) }

/-- Replay a list of `save_year_file` calls on the store. -/
def applyWrites (store : YearStore) (ws : List (String × List Entry)) : YearStore :=
  ws.foldl (fun s w => fun y => if y = w.1 then w.2 else s y) store

/-- The store after a `merge_into_year_files` call. -/
def runMerge (store : YearStore) (new_entries : List Entry)
    (dry_run overwrite : Bool) : YearStore :=
  applyWrites store (merge_into_year_files store new_entries dry_run overwrite).writes

/-- The all-empty data directory. -/
def emptyStore : YearStore := fun _ => []

/-- The data-model invariant: no two records of any yearly archive share
the `(timestamp, metal)` key. -/
def InvStore (store : YearStore) : Prop :=
  ∀ y, ((store y).map Entry.key).Nodup

/-- One invocation of the merge engine: the input records, the dry-run
flag, and the mode flag (`overwrite=True` is replacing mode). -/
structure MergeCall where
  entries : List Entry
  dry_run : Bool
  overwrite : Bool

/-- Run a sequence of `merge_into_year_files` calls against the store. -/
def runCalls (store : YearStore) (calls : List MergeCall) : YearStore :=
  calls.foldl (fun s c => runMerge s c.entries c.dry_run c.overwrite) store

/-- A sample record (Gold, 2026-01-02). -/
def cexEntry : Entry :=
  { spot := 1, metal := "Gold", source := "seed", provider := "StakTrakr",
    timestamp := "2026-01-02 12:00:00" }

/-- The same record with a different spot value. -/
def cexEntryB : Entry :=
  { spot := 2, metal := "Gold", source := "seed", provider := "StakTrakr",
    timestamp := "2026-01-02 12:00:00" }

/-- A record with a different metal (hence a different key). -/
def cexEntryC : Entry :=
  { spot := 25, metal := "Silver", source := "seed", provider := "StakTrakr",
    timestamp := "2026-01-02 12:00:00" }

/-- The existing Gold record, spot 2000.00. -/
def cexGold2000 : Entry :=
  { spot := 2000, metal := "Gold", source := "seed", provider := "StakTrakr",
    timestamp := "2026-01-02 12:00:00" }

/-- An archive holding exactly the 2000.00 Gold record for 2026-01-02. -/
def cexStoreC4 : YearStore :=
  fun y => if y = "2026" then [cexGold2000] else []

/-- The replacing input Gold record, spot 2050.00. -/
def cexGold2050 : Entry :=
  { spot := 2050, metal := "Gold", source := "seed", provider := "StakTrakr",
    timestamp := "2026-01-02 12:00:00" }

/-- A calendar date. -/
structure Date where
  year : Nat
  month : Nat
  day : Nat
deriving DecidableEq, Repr

/-- Python `%02d` formatting. -/
def pad2 (n : Nat) : String := if n < 10 then "0" ++ toString n else toString n

/-- A sharded snapshot tree: file path to contents (`none` = absent). -/
def Tree : Type := String → Option (List Entry)

/-- The path `data/hourly/YYYY/MM/DD/HH.json` (year via `str(...)`, no padding). -/
def hourlyPath (date_obj : Date) (hour_str : String) : String :=
  "hourly/" ++ toString date_obj.year ++ "/" ++ pad2 date_obj.month ++ "/"
    ++ pad2 date_obj.day ++ "/" ++ hour_str ++ ".json"

/-- The writer `save_hourly_file`: refuses only when the cell exists and
`overwrite=False`; returns whether it wrote. -/
def save_hourly_file (tree : Tree) (entries : List Entry) (date_obj : Date)
    (hour_str : String) (overwrite : Bool) : Tree × Bool :=
  if (tree (hourlyPath date_obj hour_str)).isSome && !overwrite then
    (tree, false)
  else
    (fun p => if p = hourlyPath date_obj hour_str then some entries
      else tree p, true)

/-- The path `data/15min/YYYY/MM/DD/HHMM.json`. -/
def min15Path (date_obj : Date) (hour_str minute_str : String) : String :=
  "15min/" ++ toString date_obj.year ++ "/" ++ pad2 date_obj.month ++ "/"
    ++ pad2 date_obj.day ++ "/" ++ hour_str ++ minute_str ++ ".json"

/-- The writer `save_15min_file`: always refuses to overwrite an existing cell. -/
def save_15min_file (tree : Tree) (entries : List Entry) (date_obj : Date)
    (hour_str minute_str : String) : Tree × Bool :=
  if (tree (min15Path date_obj hour_str minute_str)).isSome then
    (tree, false)
  else
    (fun p => if p = min15Path date_obj hour_str minute_str then some entries
      else tree p, true)

/-- Python `round(x, 2)` on our rational model of the script's floats. -/
def round2 (q : ℚ) : ℚ := (round (q * 100) : ℤ) / 100

/-- The table `SYMBOL_TO_METAL`, as the ordered dict of the source. -/
def SYMBOL_TO_METAL : List (String × String) :=
  [("XAU", "Gold"), ("XAG", "Silver"), ("XPT", "Platinum"),
    ("XPD", "Palladium")]

/-- The transform `invert_rates`: drop zero rates (Python falsy `rate`), invert and
round the rest. The rates dict is modelled as an association list. -/
def invert_rates (rates_dict : List (String × ℚ)) : List (String × ℚ) :=
  (rates_dict.filter (fun p => decide (p.2 ≠ 0))).map
    (fun p => (p.1, round2 (1 / p.2)))

/-- The transform `transform_latest_to_seed`: one seed entry per known surviving
symbol, in the fixed `["XAU", "XAG", "XPT", "XPD"]` order. -/
def transform_latest_to_seed (rates : List (String × ℚ))
    (date_str : String) : List Entry :=
  ["XAU", "XAG", "XPT", "XPD"].filterMap (fun symbol =>
    match dlookup (invert_rates rates) symbol with
    | none => none
    | some spotv => some
        { spot := spotv,
          metal := (dlookup SYMBOL_TO_METAL symbol).getD "",
          source := "seed",
          provider := "StakTrakr",
          timestamp := date_str ++ " 12:00:00" })

/-- A one-symbol rates payload. -/
def rates₀ : List (String × ℚ) := [("XAU", 1)]

/-- Python `%04d` / `%Y` formatting. -/
def pad4 (n : Nat) : String :=
  if n < 10 then "000" ++ toString n
  else if n < 100 then "00" ++ toString n
  else if n < 1000 then "0" ++ toString n
  else toString n

/-- The string `today.strftime("%Y-%m-%d")`. -/
def dateStr (d : Date) : String :=
  pad4 d.year ++ "-" ++ pad2 d.month ++ "-" ++ pad2 d.day

/-- Noon EST expressed as a UTC hour. -/
def NOON_HOUR : Nat := 17

/-- The writer `write_hourly`: re-tag copies with `source="hourly"` and save to the
hourly tree with `overwrite=True`. -/
def write_hourly (entries : List Entry) (tree : Tree) (hour_str : String)
    (date_obj : Date) : Tree :=
  (save_hourly_file tree
    (entries.map (fun e => { e with source := "hourly" }))
    date_obj hour_str true).1

/-- The poller's persistent world: yearly archives, hourly tree,
15-minute tree. -/
structure SysState where
  years : YearStore
  hourly : Tree
  min15 : Tree

/-- The pure data flow of one `poll_once` cycle, taking the fetched
rates and the current UTC time as inputs. Returns the new state and the
`merge_into_year_files` invocation performed, if any (its input entries,
dry-run flag, and overwrite flag). -/
def poll_once (st : SysState) (rates : List (String × ℚ)) (today : Date)
    (hour minute : Nat) : SysState × Option (List Entry × Bool × Bool) :=
  if rates.isEmpty then (st, none)
  else
    let today_str := dateStr today
    let hour_str := pad2 hour
    let minute_str := pad2 minute
    let entries := transform_latest_to_seed rates today_str
    if entries.isEmpty then (st, none)
    else
      let hourly_entries := entries.map (fun e =>
        { e with timestamp :=
            today_str ++ " " ++ hour_str ++ ":" ++ minute_str ++ ":00" })
      let hourly' := write_hourly hourly_entries st.hourly hour_str today
      let min15' := (save_15min_file st.min15 hourly_entries today
        hour_str minute_str).1
      if NOON_HOUR ≤ hour then
        if today_str ∈ (st.years (toString today.year)).map
            (fun e => strTake e.timestamp 10) then
          ({ years := st.years, hourly := hourly', min15 := min15' }, none)
        else
          ({ years := runMerge st.years entries false false,
             hourly := hourly', min15 := min15' },
            some (entries, false, false))
      else
        ({ years := st.years, hourly := hourly', min15 := min15' }, none)

/-- MetalPriceAPI per-request limit, in days. -/
def MAX_DAYS_PER_REQUEST : ℤ := 365

/-- The chunking loop of `main` (and `run_catchup`), with dates as day
ordinals: each element is the inclusive `(chunk_start, chunk_end)` of one
upstream request. -/
def chunks (chunk_start e : ℤ) : List (ℤ × ℤ) :=
  if h : chunk_start ≤ e then
    (chunk_start, min (chunk_start + (MAX_DAYS_PER_REQUEST - 1)) e) ::
      chunks (min (chunk_start + (MAX_DAYS_PER_REQUEST - 1)) e + 1) e
  else []
termination_by (e + 1 - chunk_start).toNat
decreasing_by
  simp only [MAX_DAYS_PER_REQUEST]
  omega

/-- An empty starting state for the poller. -/
def pollState₀ : SysState := ⟨emptyStore, fun _ => none, fun _ => none⟩

theorem toList_inj {a b : String} (h : a.toList = b.toList) : a = b := by
  cases a; cases b
  simp only [String.toList] at h
  exact congrArg String.mk h

theorem keyLE_total (a b : String × String) : keyLE a b ∨ keyLE b a := by
  rcases lt_trichotomy a.1.toList b.1.toList with h | h | h
  · exact Or.inl (Or.inl h)
  · rcases le_total a.2.toList b.2.toList with h2 | h2
    · exact Or.inl (Or.inr ⟨toList_inj h, h2⟩)
    · exact Or.inr (Or.inr ⟨toList_inj h.symm, h2⟩)
  · exact Or.inr (Or.inl h)

theorem keyLE_trans {a b c : String × String} (h₁ : keyLE a b) (h₂ : keyLE b c) :
    keyLE a c := by
  rcases h₁ with h₁ | ⟨h₁, h₁'⟩
  · rcases h₂ with h₂ | ⟨h₂, _⟩
    · exact Or.inl (lt_trans h₁ h₂)
    · exact Or.inl (h₂ ▸ h₁)
  · rcases h₂ with h₂ | ⟨h₂, h₂'⟩
    · exact Or.inl (h₁ ▸ h₂)
    · exact Or.inr ⟨h₁.trans h₂, le_trans h₁' h₂'⟩

/-- Mutual `keyLE` forces equal keys. -/
theorem keyLE_antisymm {a b : String × String} (h₁ : keyLE a b) (h₂ : keyLE b a) :
    a = b := by
  rcases h₁ with h₁ | ⟨h₁, h₁'⟩
  · rcases h₂ with h₂ | ⟨h₂, _⟩
    · exact absurd h₂ (not_lt_of_lt h₁)
    · exact absurd h₁ (by simp [strLT, h₂])
  · rcases h₂ with h₂ | ⟨h₂, h₂'⟩
    · exact absurd h₂ (by simp [strLT, h₁])
    · exact Prod.ext h₁ (toList_inj (le_antisymm h₁' h₂'))

theorem sortEntries_perm (l : List Entry) : List.Perm (sortEntries l) l :=
  List.perm_insertionSort entryLE l

theorem sortEntries_sorted (l : List Entry) : (sortEntries l).Sorted entryLE :=
  List.sorted_insertionSort entryLE l

theorem popKey_snd_sublist {κ β : Type} [DecidableEq κ] (d : List (κ × β)) (k : κ) :
    List.Sublist (popKey d k).2 d := by
  induction d with
  | nil => simp [popKey]
  | cons p ps ih =>
      by_cases h : p.1 = k
      · simp [popKey, h]
      · simpa [popKey, h] using ih.cons₂ p

theorem popKey_fst_mem {κ β : Type} [DecidableEq κ] {d : List (κ × β)} {k : κ} {v : β}
    (h : (popKey d k).1 = some v) : (k, v) ∈ d := by
  induction d with
  | nil => simp [popKey] at h
  | cons p ps ih =>
      by_cases hp : p.1 = k
      · simp only [popKey, if_pos hp, Option.some.injEq] at h
        subst h
        rw [← hp, Prod.mk.eta]
        exact List.mem_cons_self p ps
      · simp only [popKey, if_neg hp] at h
        exact List.mem_cons_of_mem p (ih h)

theorem popKey_fst_none {κ β : Type} [DecidableEq κ] {d : List (κ × β)} {k : κ}
    (h : k ∉ d.map Prod.fst) : (popKey d k).1 = none := by
  induction d with
  | nil => rfl
  | cons p ps ih =>
      simp only [List.map_cons, List.mem_cons, not_or] at h
      have hne : ¬ p.1 = k := fun hc => h.1 hc.symm
      simp only [popKey, if_neg hne]
      exact ih h.2

/-- With unique keys, popping `k` is filtering `k` out. -/
theorem popKey_snd_eq_filter {κ β : Type} [DecidableEq κ] (d : List (κ × β)) (k : κ)
    (h : (d.map Prod.fst).Nodup) :
    (popKey d k).2 = d.filter (fun p => decide (p.1 ≠ k)) := by
  induction d with
  | nil => rfl
  | cons p ps ih =>
      simp only [List.map_cons, List.nodup_cons] at h
      by_cases hp : p.1 = k
      · rw [show (popKey (p :: ps) k).2 = ps by simp [popKey, hp]]
        rw [List.filter_cons_of_neg (by simpa using hp)]
        refine (List.filter_eq_self.2 (fun q hq => ?_)).symm
        have : q.1 ≠ k := fun hqk => h.1 (by
          rw [hp, ← hqk]
          exact List.mem_map_of_mem Prod.fst hq)
        simpa using this
      · rw [show (popKey (p :: ps) k).2 = p :: (popKey ps k).2 by
          simp [popKey, hp]]
        rw [List.filter_cons_of_pos (by simpa using hp), ih h.2]

theorem dlookup_filter_ne {κ β : Type} [DecidableEq κ] (d : List (κ × β)) (k k' : κ) (h : k ≠ k') :
    dlookup (d.filter (fun p => decide (p.1 ≠ k'))) k = dlookup d k := by
  induction d with
  | nil => rfl
  | cons p ps ih =>
      by_cases hp : p.1 = k'
      · rw [List.filter_cons_of_neg (by simpa using hp)]
        rw [show dlookup (p :: ps) k =
          dlookup ps k by
            simp [dlookup, List.find?_cons,
              decide_eq_false (show ¬ p.1 = k from hp ▸ fun hc => h hc.symm)]]
        exact ih
      · rw [List.filter_cons_of_pos (by simpa using hp)]
        by_cases hpk : p.1 = k
        · simp [dlookup, List.find?_cons, hpk]
        · simp only [dlookup, List.find?_cons, decide_eq_false hpk]
          exact ih

theorem dlookup_nil {κ β : Type} [DecidableEq κ] (k : κ) :
    dlookup ([] : List (κ × β)) k = none := rfl

theorem dlookup_cons {κ β : Type} [DecidableEq κ] (p : κ × β) (ps : List (κ × β)) (k : κ) :
    dlookup (p :: ps) k = if p.1 = k then some p.2 else dlookup ps k := by
  by_cases h : p.1 = k <;> simp [dlookup, List.find?_cons, h]

theorem popKey_fst_eq_dlookup {κ β : Type} [DecidableEq κ] (d : List (κ × β)) (k : κ) :
    (popKey d k).1 = dlookup d k := by
  induction d with
  | nil => rfl
  | cons p ps ih =>
      rw [dlookup_cons]
      by_cases h : p.1 = k
      · simp [popKey, h]
      · simp [popKey, h, ih]

theorem dlookup_eq_none {κ β : Type} [DecidableEq κ] {d : List (κ × β)} {k : κ} :
    dlookup d k = none ↔ k ∉ d.map Prod.fst := by
  induction d with
  | nil => simp [dlookup_nil]
  | cons p ps ih =>
      rw [dlookup_cons]
      by_cases h : p.1 = k
      · simp [h]
      · simp only [if_neg h, ih, List.map_cons, List.mem_cons, not_or]
        constructor
        · exact fun hn => ⟨fun hc => h hc.symm, hn⟩
        · exact fun hn => hn.2

theorem dlookup_eq_some_of_mem {κ β : Type} [DecidableEq κ] {d : List (κ × β)} {k : κ} {v : β}
    (hnd : (d.map Prod.fst).Nodup) (h : (k, v) ∈ d) :
    dlookup d k = some v := by
  induction d with
  | nil => cases h
  | cons p ps ih =>
      rw [List.map_cons, List.nodup_cons] at hnd
      rw [dlookup_cons]
      rcases List.mem_cons.1 h with rfl | h'
      · simp
      · have hp : p.1 ≠ k := fun hc => hnd.1 (by
          rw [hc]
          exact List.mem_map_of_mem Prod.fst h')
        rw [if_neg hp]
        exact ih hnd.2 h'

theorem dlookup_eq_of_perm {κ β : Type} [DecidableEq κ] {d₁ d₂ : List (κ × β)} (hperm : List.Perm d₁ d₂)
    (hnd : (d₁.map Prod.fst).Nodup) (k : κ) :
    dlookup d₁ k = dlookup d₂ k := by
  cases h : dlookup d₂ k with
  | none =>
      rw [dlookup_eq_none]
      rw [dlookup_eq_none] at h
      exact fun hc => h ((hperm.map Prod.fst).mem_iff.1 hc)
  | some v =>
      have hv : (k, v) ∈ d₂ := by
        rcases Option.map_eq_some'.1 h with ⟨q, hq, hq2⟩
        have hq1 : q.1 = k := by simpa using List.find?_some hq
        have hqmem : q ∈ d₂ := List.mem_of_find?_eq_some hq
        rw [← hq1, ← hq2, Prod.mk.eta]
        exact hqmem
      exact dlookup_eq_some_of_mem hnd (hperm.symm.subset hv)

theorem dlookup_map_update_ne {κ β : Type} [DecidableEq κ] (d : List (κ × β)) (k k' : κ) (v : β)
    (hk : k ≠ k') :
    dlookup (d.map (fun p => if p.1 = k' then (k', v) else p)) k
      = dlookup d k := by
  induction d with
  | nil => rfl
  | cons p ps ih =>
      rw [List.map_cons, dlookup_cons, dlookup_cons]
      by_cases hp : p.1 = k'
      · by_cases hpk : p.1 = k
        · exact absurd (hpk.symm.trans hp) hk
        · rw [if_neg (show ¬ ((if p.1 = k' then (k', v) else p).1 = k) by
            rw [if_pos hp]
            exact fun hc => hk hc.symm), if_neg hpk]
          exact ih
      · by_cases hpk : p.1 = k
        · rw [if_pos (show (if p.1 = k' then (k', v) else p).1 = k by
            rw [if_neg hp]
            exact hpk), if_pos hpk, if_neg hp]
        · rw [if_neg (show ¬ ((if p.1 = k' then (k', v) else p).1 = k) by
            rw [if_neg hp]
            exact hpk), if_neg hpk]
          exact ih

theorem dlookup_map_update_self {κ β : Type} [DecidableEq κ] (d : List (κ × β)) (k' : κ) (v : β)
    (hmem : k' ∈ d.map Prod.fst) :
    dlookup (d.map (fun p => if p.1 = k' then (k', v) else p)) k'
      = some v := by
  induction d with
  | nil => simp at hmem
  | cons p ps ih =>
      rw [List.map_cons, dlookup_cons]
      by_cases hp : p.1 = k'
      · rw [if_pos (show (if p.1 = k' then (k', v) else p).1 = k' by
          rw [if_pos hp]), if_pos hp]
      · rw [if_neg (show ¬ ((if p.1 = k' then (k', v) else p).1 = k') by
          rw [if_neg hp]
          exact hp)]
        refine ih ?_
        rw [List.map_cons] at hmem
        rcases List.mem_cons.1 hmem with hc | hc
        · exact absurd hc.symm hp
        · exact hc

theorem dlookup_append_single {κ β : Type} [DecidableEq κ] (d : List (κ × β)) (k k' : κ) (v : β) :
    dlookup (d ++ [(k', v)]) k =
      match dlookup d k with
      | some w => some w
      | none => if k' = k then some v else none := by
  induction d with
  | nil =>
      rw [List.nil_append, dlookup_nil, dlookup_cons]
      by_cases h : k' = k
      · rw [if_pos h]
        show some v = if k' = k then some v else none
        rw [if_pos h]
      · rw [if_neg h]
        show (none : Option β) = if k' = k then some v else none
        rw [if_neg h]
  | cons p ps ih =>
      rw [List.cons_append, dlookup_cons, dlookup_cons]
      by_cases hp : p.1 = k
      · rw [if_pos hp, if_pos hp]
      · rw [if_neg hp, if_neg hp]
        exact ih

/-- Dict-assignment semantics for lookups: `d[k'] = v` makes `k'` map to
`v` and leaves every other key unchanged. -/
theorem dlookup_dictInsert {κ β : Type} [DecidableEq κ] (d : List (κ × β)) (k k' : κ) (v : β) :
    dlookup (dictInsert d k' v) k = if k = k' then some v else dlookup d k := by
  unfold dictInsert
  by_cases hmem : d.any (fun q => decide (q.1 = k'))
  · rw [if_pos hmem]
    by_cases hk : k = k'
    · subst hk
      rw [if_pos rfl]
      refine dlookup_map_update_self d k v ?_
      rcases List.any_eq_true.1 hmem with ⟨q, hq, hq1⟩
      simp only [decide_eq_true_eq] at hq1
      rw [← hq1]
      exact List.mem_map_of_mem Prod.fst hq
    · rw [if_neg hk]
      exact dlookup_map_update_ne d k k' v hk
  · rw [if_neg hmem, dlookup_append_single]
    by_cases hk : k = k'
    · rw [if_pos hk]
      have hnone : dlookup d k = none := by
        rw [dlookup_eq_none]
        intro hc
        rcases List.mem_map.1 hc with ⟨q, hq, hq1⟩
        exact hmem (List.any_eq_true.2
          ⟨q, hq, decide_eq_true (hq1.trans hk)⟩)
      rw [hnone]
      simp [hk]
    · rw [if_neg hk]
      cases h : dlookup d k with
      | some w => rfl
      | none => rw [if_neg (fun hc => hk hc.symm)]

theorem mem_dictInsert {κ β : Type} [DecidableEq κ] {d : List (κ × β)} {k : κ} {v : β} {p : κ × β}
    (hp : p ∈ dictInsert d k v) : p = (k, v) ∨ p ∈ d := by
  unfold dictInsert at hp
  by_cases h : d.any (fun q => decide (q.1 = k))
  · rw [if_pos h] at hp
    rcases List.mem_map.1 hp with ⟨q, hq, rfl⟩
    by_cases h2 : q.1 = k
    · simp [h2]
    · simp only [if_neg h2]
      exact Or.inr hq
  · rw [if_neg h, List.mem_append] at hp
    rcases hp with hp | hp
    · exact Or.inr hp
    · simpa using Or.inl (List.mem_singleton.1 hp)

theorem dictInsert_keys_nodup {κ β : Type} [DecidableEq κ] (d : List (κ × β)) (k : κ) (v : β)
    (h : (d.map Prod.fst).Nodup) :
    ((dictInsert d k v).map Prod.fst).Nodup := by
  unfold dictInsert
  by_cases hmem : d.any (fun q => decide (q.1 = k))
  · rw [if_pos hmem]
    have : (d.map (fun p => if p.1 = k then (k, v) else p)).map Prod.fst
        = d.map Prod.fst := by
      rw [List.map_map]
      refine List.map_congr_left (fun p hp => ?_)
      by_cases h2 : p.1 = k <;> simp [h2]
    rwa [this]
  · rw [if_neg hmem]
    have hk : k ∉ d.map Prod.fst := by
      intro hc
      rcases List.mem_map.1 hc with ⟨q, hq, hq1⟩
      exact hmem (List.any_eq_true.2 ⟨q, hq, by simpa using hq1⟩)
    rw [List.map_append, List.map_cons, List.map_nil, List.nodup_append]
    exact ⟨h, List.nodup_singleton k, fun a ha hmem => by
      rcases List.mem_singleton.1 hmem with rfl
      exact hk ha⟩

theorem applyWrites_cons (store : YearStore) (w : String × List Entry)
    (ws : List (String × List Entry)) :
    applyWrites store (w :: ws) =
      applyWrites (fun z => if z = w.1 then w.2 else store z) ws := rfl

theorem applyWrites_not_mem (store : YearStore) (ws : List (String × List Entry))
    (y : String) (h : y ∉ ws.map Prod.fst) :
    applyWrites store ws y = store y := by
  induction ws generalizing store with
  | nil => rfl
  | cons w ws ih =>
      simp only [List.map_cons, List.mem_cons, not_or] at h
      rw [applyWrites_cons, ih _ h.2]
      simp [h.1]

theorem applyWrites_mem (store : YearStore) (ws : List (String × List Entry))
    (y : String) (v : List Entry) (hnd : (ws.map Prod.fst).Nodup)
    (hmem : (y, v) ∈ ws) : applyWrites store ws y = v := by
  induction ws generalizing store with
  | nil => cases hmem
  | cons w ws ih =>
      simp only [List.map_cons, List.nodup_cons] at hnd
      rcases List.mem_cons.1 hmem with h | h
      · subst h
        rw [applyWrites_cons,
          applyWrites_not_mem _ _ _ (by simpa using hnd.1)]
        simp
      · exact (applyWrites_cons store w ws) ▸ ih _ hnd.2 h

theorem yearsOf_nodup (entries : List Entry) : (yearsOf entries).Nodup :=
  (List.perm_insertionSort _ _).nodup_iff.2 (List.nodup_dedup _)

theorem mem_yearsOf {entries : List Entry} {y : String} :
    y ∈ yearsOf entries ↔ y ∈ entries.map Entry.year := by
  unfold yearsOf
  rw [(List.perm_insertionSort _ _).mem_iff, List.mem_dedup]

/-- Generic: a `filterMap` that tags each kept element with itself has a
first-projection that is a sublist of the scanned list. -/
theorem filterMap_tag_fst_sublist {β : Type} (f : String → Option β)
    (l : List String) :
    List.Sublist ((l.filterMap (fun y => (f y).map (fun m => (y, m)))).map
      Prod.fst) l := by
  induction l with
  | nil => simp
  | cons a l ih =>
      rw [List.filterMap_cons]
      cases hfa : f a with
      | none => simpa [hfa] using ih.cons a
      | some m => simpa [hfa] using ih.cons₂ a

theorem writes_map_fst_sublist (store : YearStore) (R : List Entry)
    (d o : Bool) :
    List.Sublist ((merge_into_year_files store R d o).writes.map Prod.fst)
      (yearsOf R) := by
  unfold merge_into_year_files
  cases d with
  | true => simp
  | false => simpa using
      filterMap_tag_fst_sublist (fun y => (mergeYearStep store R o y).1) (yearsOf R)

theorem writes_map_fst_nodup (store : YearStore) (R : List Entry) (d o : Bool) :
    ((merge_into_year_files store R d o).writes.map Prod.fst).Nodup :=
  (writes_map_fst_sublist store R d o).nodup (yearsOf_nodup R)

theorem mem_writes_iff (store : YearStore) (R : List Entry) (o : Bool)
    (y : String) (v : List Entry) :
    (y, v) ∈ (merge_into_year_files store R false o).writes ↔
      y ∈ yearsOf R ∧ (mergeYearStep store R o y).1 = some v := by
  unfold merge_into_year_files
  simp only [if_neg Bool.false_ne_true, List.mem_filterMap, Option.map_eq_some']
  constructor
  · rintro ⟨a, ha, m, hm, heq⟩
    obtain ⟨rfl, rfl⟩ := Prod.mk.injEq .. ▸ heq
    exact ⟨ha, hm⟩
  · rintro ⟨hy, hm⟩
    exact ⟨y, hy, v, hm, rfl⟩

theorem mem_writes_fst {store : YearStore} {R : List Entry} {o : Bool}
    {y : String}
    (h : y ∈ (merge_into_year_files store R false o).writes.map Prod.fst) :
    ∃ v, (y, v) ∈ (merge_into_year_files store R false o).writes := by
  rcases List.mem_map.1 h with ⟨⟨y', v⟩, hmem, rfl⟩
  exact ⟨v, hmem⟩

/-- What one (persisted) merge leaves in the archive of year `y`. -/
theorem runMerge_apply (store : YearStore) (R : List Entry) (o : Bool)
    (y : String) :
    runMerge store R false o y =
      if y ∈ yearsOf R then ((mergeYearStep store R o y).1).getD (store y)
      else store y := by
  by_cases hy : y ∈ yearsOf R
  · cases hstep : (mergeYearStep store R o y).1 with
    | none =>
        rw [if_pos hy, Option.getD_none]
        refine applyWrites_not_mem _ _ _ (fun hmem => ?_)
        rcases mem_writes_fst hmem with ⟨v, hv⟩
        rw [(mem_writes_iff store R o y v).1 hv |>.2] at hstep
        cases hstep
    | some m =>
        rw [if_pos hy, Option.getD_some]
        exact applyWrites_mem _ _ _ _ (writes_map_fst_nodup store R false o)
          ((mem_writes_iff store R o y m).2 ⟨hy, hstep⟩)
  · rw [if_neg hy]
    refine applyWrites_not_mem _ _ _ (fun hmem => ?_)
    exact hy (List.Sublist.mem hmem (writes_map_fst_sublist store R false o))

/-- A dry run never touches the store. -/
theorem runMerge_dry (store : YearStore) (R : List Entry) (o : Bool) :
    runMerge store R true o = store := rfl

theorem mem_entriesForYear {R : List Entry} {y : String} {e : Entry} :
    e ∈ entriesForYear R y ↔ e ∈ R ∧ e.year = y := by
  simp [entriesForYear]

theorem processYearAdditive_none_iff (ex entries : List Entry) :
    processYearAdditive ex entries = none ↔
      ∀ e ∈ entries, e.key ∈ ex.map Entry.key := by
  unfold processYearAdditive
  by_cases h : (newForYear ex entries).isEmpty
  · simp only [if_pos h, true_iff]
    rw [List.isEmpty_iff, newForYear, List.filter_eq_nil_iff] at h
    intro e he
    have := h e he
    simpa using this
  · rw [if_neg h]
    constructor
    · intro hc; cases hc
    · intro hall
      exact absurd (by
        rw [List.isEmpty_iff, newForYear, List.filter_eq_nil_iff]
        intro e he
        simpa using hall e he) h

theorem mergeYearStep_additive (store : YearStore) (R : List Entry) (y : String) :
    mergeYearStep store R false y =
      match processYearAdditive (store y) (entriesForYear R y) with
      | none => (none, 0)
      | some r => (some r.1, r.2) := rfl

/-- After a persisted additive merge, every merged entry's key is present
in its year's archive. -/
theorem key_mem_after_additive (store : YearStore) (R : List Entry)
    (e : Entry) (he : e ∈ R) :
    e.key ∈ ((runMerge store R false false e.year).map Entry.key) := by
  have hy : e.year ∈ yearsOf R :=
    mem_yearsOf.2 (List.mem_map_of_mem Entry.year he)
  have hey : e ∈ entriesForYear R e.year := mem_entriesForYear.2 ⟨he, rfl⟩
  rw [runMerge_apply, if_pos hy, mergeYearStep_additive]
  cases hadd : processYearAdditive (store e.year) (entriesForYear R e.year) with
  | none =>
      simpa using (processYearAdditive_none_iff _ _).1 hadd e hey
  | some r =>
      have hr : r.1 = sortEntries (store e.year ++
          newForYear (store e.year) (entriesForYear R e.year)) := by
        unfold processYearAdditive at hadd
        by_cases h : (newForYear (store e.year) (entriesForYear R e.year)).isEmpty
        · rw [if_pos h] at hadd; cases hadd
        · rw [if_neg h] at hadd
          cases hadd; rfl
      simp only [Option.getD_some, hr]
      rw [((sortEntries_perm _).map Entry.key).mem_iff, List.map_append,
        List.mem_append]
      by_cases hk : e.key ∈ (store e.year).map Entry.key
      · exact Or.inl hk
      · exact Or.inr (List.mem_map_of_mem Entry.key
          (List.mem_filter.2 ⟨hey, by simpa using hk⟩))

theorem mergeYearStep_additive_none (store : YearStore) (R : List Entry)
    (y : String)
    (h : ∀ e ∈ entriesForYear R y, e.key ∈ (store y).map Entry.key) :
    mergeYearStep store R false y = (none, 0) := by
  rw [mergeYearStep_additive, (processYearAdditive_none_iff _ _).2 h]

/-- C2: after a persisted additive merge of `R`, a second additive merge of
the same `R` performs no `save_year_file` call at all, reports an
added-count of zero for every year of `R`, and leaves the store as it was. -/
theorem additive_merge_idempotent (store : YearStore) (R : List Entry) :
    (merge_into_year_files (runMerge store R false false) R false false).writes
        = [] ∧
    (merge_into_year_files (runMerge store R false false) R false false).results
        = (yearsOf R).map (fun y => (y, 0)) ∧
    runMerge (runMerge store R false false) R false false =
      runMerge store R false false := by
  have hstep : ∀ y, mergeYearStep (runMerge store R false false) R false y
      = (none, 0) := by
    intro y
    apply mergeYearStep_additive_none
    intro e he
    rcases mem_entriesForYear.1 he with ⟨heR, hey⟩
    have h2 := key_mem_after_additive store R e heR
    rwa [hey] at h2
  have hw : (merge_into_year_files (runMerge store R false false) R
      false false).writes = [] := by
    simp [merge_into_year_files, hstep]
  refine ⟨hw, ?_, ?_⟩
  · simp [merge_into_year_files, hstep]
  · rw [show runMerge (runMerge store R false false) R false false =
        applyWrites (runMerge store R false false)
          (merge_into_year_files (runMerge store R false false) R
            false false).writes from rfl,
      hw]
    rfl

theorem mapPop_cons (e : Entry) (es : List Entry)
    (d : List ((String × String) × Entry)) :
    mapPop (e :: es) d =
      ((popKey d e.key).1.getD e :: (mapPop es (popKey d e.key).2).1,
        (mapPop es (popKey d e.key).2).2) := rfl

theorem foldl_dictInsert_keys_nodup (entries : List Entry)
    (d : List ((String × String) × Entry)) (h : (d.map Prod.fst).Nodup) :
    (((entries.foldl (fun d e => dictInsert d e.key e) d)).map Prod.fst).Nodup := by
  induction entries generalizing d with
  | nil => exact h
  | cons e es ih => exact ih _ (dictInsert_keys_nodup _ _ _ h)

theorem buildNewKeys_keys_nodup (entries : List Entry) :
    ((buildNewKeys entries).map Prod.fst).Nodup :=
  foldl_dictInsert_keys_nodup entries [] (by simp)

theorem foldl_dictInsert_wf (entries : List Entry)
    (d : List ((String × String) × Entry)) (h : ∀ p ∈ d, p.2.key = p.1) :
    ∀ p ∈ entries.foldl (fun d e => dictInsert d e.key e) d, p.2.key = p.1 := by
  induction entries generalizing d with
  | nil => exact h
  | cons e es ih =>
      refine ih _ (fun p hp => ?_)
      rcases mem_dictInsert hp with rfl | hp'
      · rfl
      · exact h p hp'

theorem buildNewKeys_wf (entries : List Entry) :
    ∀ p ∈ buildNewKeys entries, p.2.key = p.1 :=
  foldl_dictInsert_wf entries [] (by simp)

theorem getLast?_cons_eq {α : Type} (a : α) (l : List α) :
    (a :: l).getLast? = some ((l.getLast?).getD a) := by
  induction l generalizing a with
  | nil => rfl
  | cons b l ih =>
      rw [List.getLast?_cons_cons, ih b, Option.getD_some]

theorem dlookup_foldl_dictInsert (entries : List Entry)
    (d : List ((String × String) × Entry)) (k : String × String) :
    dlookup (entries.foldl (fun d e => dictInsert d e.key e) d) k =
      match (entries.filter (fun e => decide (e.key = k))).getLast? with
      | some e => some e
      | none => dlookup d k := by
  induction entries generalizing d with
  | nil => rfl
  | cons e es ih =>
      rw [List.foldl_cons, ih, List.filter_cons]
      by_cases hek : e.key = k
      · rw [if_pos (decide_eq_true hek), getLast?_cons_eq]
        cases hlast : (es.filter (fun e => decide (e.key = k))).getLast? with
        | some e' => rw [Option.getD_some]
        | none =>
            rw [Option.getD_none, dlookup_dictInsert,
              if_pos hek.symm]
      · rw [if_neg (by simpa using hek)]
        cases hlast : (es.filter (fun e => decide (e.key = k))).getLast? with
        | some e' => rfl
        | none =>
            rw [dlookup_dictInsert, if_neg (fun hc => hek hc.symm)]

/-- In the dict `{(e["timestamp"], e["metal"]): e for e in entries}`, later
entries win: the binding for a key is the last input entry with that key. -/
theorem dlookup_buildNewKeys (entries : List Entry) (k : String × String) :
    dlookup (buildNewKeys entries) k =
      (entries.filter (fun e => decide (e.key = k))).getLast? := by
  rw [buildNewKeys, dlookup_foldl_dictInsert]
  cases hlast : (entries.filter (fun e => decide (e.key = k))).getLast? with
  | some e' => rfl
  | none => rfl

theorem mapPop_fst_map_key (ex : List Entry)
    (d : List ((String × String) × Entry)) (wf : ∀ p ∈ d, p.2.key = p.1) :
    ((mapPop ex d).1).map Entry.key = ex.map Entry.key := by
  induction ex generalizing d with
  | nil => rfl
  | cons e es ih =>
      rw [mapPop_cons, List.map_cons, List.map_cons]
      congr 1
      · cases hv : (popKey d e.key).1 with
        | none => simp
        | some v =>
            have hmem : (e.key, v) ∈ d := popKey_fst_mem hv
            simpa using wf _ hmem
      · exact ih _ (fun p hp => wf p ((popKey_snd_sublist d e.key).subset hp))

theorem mapPop_snd_sublist (ex : List Entry)
    (d : List ((String × String) × Entry)) :
    List.Sublist (mapPop ex d).2 d := by
  induction ex generalizing d with
  | nil => exact List.Sublist.refl d
  | cons e es ih =>
      rw [mapPop_cons]
      exact (ih _).trans (popKey_snd_sublist d e.key)

theorem mapPop_snd_keys_not_mem (ex : List Entry)
    (d : List ((String × String) × Entry))
    (hex : (ex.map Entry.key).Nodup) (hd : (d.map Prod.fst).Nodup) :
    ∀ p ∈ (mapPop ex d).2, p.1 ∉ ex.map Entry.key := by
  induction ex generalizing d with
  | nil => intro p hp; simp
  | cons e es ih =>
      rw [List.map_cons, List.nodup_cons] at hex
      intro p hp
      rw [mapPop_cons] at hp
      have hd₁ : (((popKey d e.key).2).map Prod.fst).Nodup :=
        ((popKey_snd_sublist d e.key).map Prod.fst).nodup hd
      have hpd₁ : p ∈ (popKey d e.key).2 := (mapPop_snd_sublist es _).subset hp
      have hke : p.1 ≠ e.key := by
        intro hc
        rw [popKey_snd_eq_filter d e.key hd] at hpd₁
        have := List.of_mem_filter hpd₁
        simp [hc] at this
      rw [List.map_cons]
      intro hmem
      rcases List.mem_cons.1 hmem with hc | hc
      · exact hke hc
      · exact ih _ hex.2 hd₁ p hp hc

theorem processYearOverwrite_eq (ex entries : List Entry) :
    processYearOverwrite ex entries =
      (sortEntries ((mapPop ex (buildNewKeys entries)).1 ++
        ((mapPop ex (buildNewKeys entries)).2).map Prod.snd),
       entries.length) := rfl

/-- The keys of the values held by a sub-dict of `buildNewKeys` are its
binding keys. -/
theorem mapPop_snd_values_keys (ex entries : List Entry) :
    (((mapPop ex (buildNewKeys entries)).2).map Prod.snd).map Entry.key =
      ((mapPop ex (buildNewKeys entries)).2).map Prod.fst := by
  rw [List.map_map]
  refine List.map_congr_left (fun p hp => ?_)
  exact buildNewKeys_wf entries p ((mapPop_snd_sublist _ _).subset hp)

/-- Replacing-mode merge preserves the no-duplicate-key invariant of the
archive, for arbitrary input. -/
theorem processYearOverwrite_keys_nodup (ex entries : List Entry)
    (hex : (ex.map Entry.key).Nodup) :
    (((processYearOverwrite ex entries).1).map Entry.key).Nodup := by
  rw [processYearOverwrite_eq]
  rw [((sortEntries_perm _).map Entry.key).nodup_iff, List.map_append,
    List.nodup_append]
  refine ⟨?_, ?_, ?_⟩
  · rw [mapPop_fst_map_key _ _ (buildNewKeys_wf entries)]
    exact hex
  · rw [mapPop_snd_values_keys]
    exact ((mapPop_snd_sublist _ _).map Prod.fst).nodup
      (buildNewKeys_keys_nodup entries)
  · rw [mapPop_fst_map_key _ _ (buildNewKeys_wf entries),
      mapPop_snd_values_keys]
    intro a ha hb
    rcases List.mem_map.1 hb with ⟨p, hp, rfl⟩
    exact mapPop_snd_keys_not_mem ex _ hex (buildNewKeys_keys_nodup entries)
      p hp ha

/-- Additive-mode merge preserves the no-duplicate-key invariant provided
the input itself has no duplicate keys. -/
theorem processYearAdditive_keys_nodup (ex entries : List Entry)
    (hex : (ex.map Entry.key).Nodup) (hent : (entries.map Entry.key).Nodup)
    {r : List Entry × Nat} (h : processYearAdditive ex entries = some r) :
    ((r.1).map Entry.key).Nodup := by
  unfold processYearAdditive at h
  by_cases hempty : (newForYear ex entries).isEmpty
  · rw [if_pos hempty] at h; cases h
  · rw [if_neg hempty] at h
    cases h
    rw [((sortEntries_perm _).map Entry.key).nodup_iff, List.map_append,
      List.nodup_append]
    refine ⟨hex, ?_, ?_⟩
    · exact ((List.filter_sublist entries).map Entry.key).nodup hent
    · intro a ha hb
      rcases List.mem_map.1 hb with ⟨e, he, rfl⟩
      have hkey := List.of_mem_filter he
      simp only [decide_eq_true_eq] at hkey
      exact hkey ha

theorem mergeYearStep_overwrite (store : YearStore) (R : List Entry)
    (y : String) :
    mergeYearStep store R true y =
      (some (processYearOverwrite (store y) (entriesForYear R y)).1,
        (processYearOverwrite (store y) (entriesForYear R y)).2) := rfl

theorem runMerge_preserves_inv (store : YearStore) (R : List Entry)
    (dry o : Bool) (hInv : InvStore store)
    (hR : o = false → (R.map Entry.key).Nodup) :
    InvStore (runMerge store R dry o) := by
  cases dry with
  | true => rwa [runMerge_dry]
  | false =>
      intro y
      rw [runMerge_apply]
      by_cases hy : y ∈ yearsOf R
      · rw [if_pos hy]
        cases o with
        | true =>
            rw [mergeYearStep_overwrite]
            exact processYearOverwrite_keys_nodup _ _ (hInv y)
        | false =>
            rw [mergeYearStep_additive]
            cases hadd : processYearAdditive (store y) (entriesForYear R y) with
            | none => simpa using hInv y
            | some r =>
                simp only [Option.getD_some]
                exact processYearAdditive_keys_nodup _ _ (hInv y)
                  (((List.filter_sublist R).map Entry.key).nodup (hR rfl)) hadd
      · rw [if_neg hy]
        exact hInv y

theorem entry_key_eq_of_le {a b : Entry} (h₁ : entryLE a b) (h₂ : entryLE b a) :
    a.key = b.key := keyLE_antisymm h₁ h₂

/-- Two sorted lists that are permutations of each other and have
pairwise-distinct keys are equal. -/
theorem sorted_nodup_keys_unique : ∀ {l₁ l₂ : List Entry},
    List.Perm l₁ l₂ → l₁.Pairwise entryLE → l₂.Pairwise entryLE →
    ((l₁.map Entry.key).Nodup) → l₁ = l₂ := by
  intro l₁
  induction l₁ with
  | nil =>
      intro l₂ hperm _ _ _
      exact hperm.nil_eq
  | cons a t₁ ih =>
      intro l₂ hperm h₁ h₂ hnd
      cases l₂ with
      | nil => simpa using hperm.length_eq
      | cons b t₂ =>
          rcases List.pairwise_cons.1 h₁ with ⟨ha, h₁'⟩
          rcases List.pairwise_cons.1 h₂ with ⟨hb, h₂'⟩
          rw [List.map_cons, List.nodup_cons] at hnd
          by_cases hab : a = b
          · subst hab
            rw [ih hperm.cons_inv h₁' h₂' hnd.2]
          · exfalso
            have hamem : a ∈ t₂ := by
              rcases List.mem_cons.1 (hperm.subset (List.mem_cons_self a t₁))
                with hc | hc
              · exact absurd hc hab
              · exact hc
            have hbmem : b ∈ t₁ := by
              rcases List.mem_cons.1 (hperm.symm.subset
                (List.mem_cons_self b t₂)) with hc | hc
              · exact absurd hc.symm hab
              · exact hc
            have hkey : a.key = b.key :=
              entry_key_eq_of_le (ha b hbmem) (hb a hamem)
            exact hnd.1 (hkey ▸ List.mem_map_of_mem Entry.key hbmem)

theorem processYearAdditive_some_fst {ex entries : List Entry}
    {r : List Entry × Nat} (h : processYearAdditive ex entries = some r) :
    r.1 = sortEntries (ex ++ newForYear ex entries) ∧
      r.2 = (newForYear ex entries).length := by
  unfold processYearAdditive at h
  by_cases hempty : (newForYear ex entries).isEmpty
  · rw [if_pos hempty] at h; cases h
  · rw [if_neg hempty] at h
    cases h
    exact ⟨rfl, rfl⟩

theorem foldl_dictInsert_eq_append (entries : List Entry)
    (d : List ((String × String) × Entry))
    (hdisj : ∀ e ∈ entries, e.key ∉ d.map Prod.fst)
    (hnd : (entries.map Entry.key).Nodup) :
    entries.foldl (fun d e => dictInsert d e.key e) d =
      d ++ entries.map (fun e => (e.key, e)) := by
  induction entries generalizing d with
  | nil => simp
  | cons e es ih =>
      rw [List.map_cons, List.nodup_cons] at hnd
      rw [List.foldl_cons]
      have hnotany : ¬ d.any (fun q => decide (q.1 = e.key)) := by
        intro hany
        rcases List.any_eq_true.1 hany with ⟨q, hq, hq1⟩
        refine hdisj e (List.mem_cons_self e es) ?_
        simp only [decide_eq_true_eq] at hq1
        rw [← hq1]
        exact List.mem_map_of_mem Prod.fst hq
      have hins : dictInsert d e.key e = d ++ [(e.key, e)] := by
        unfold dictInsert
        rw [if_neg hnotany]
      have hdisj' : ∀ e' ∈ es, e'.key ∉ (d ++ [(e.key, e)]).map Prod.fst := by
        intro e' he' hc
        rw [List.map_append] at hc
        rcases List.mem_append.1 hc with hc | hc
        · exact hdisj e' (List.mem_cons_of_mem _ he') hc
        · simp only [List.map_cons, List.map_nil, List.mem_singleton] at hc
          exact hnd.1 (hc ▸ List.mem_map_of_mem Entry.key he')
      rw [hins, ih _ hdisj' hnd.2, List.append_assoc, List.singleton_append,
        List.map_cons]

/-- With duplicate-free input keys the dict comprehension is just the
key-tagged input list. -/
theorem buildNewKeys_eq_map (entries : List Entry)
    (hnd : (entries.map Entry.key).Nodup) :
    buildNewKeys entries = entries.map (fun e => (e.key, e)) := by
  rw [buildNewKeys, foldl_dictInsert_eq_append entries [] (by simp) hnd,
    List.nil_append]

theorem mapPop_fst_eq (ex : List Entry)
    (d : List ((String × String) × Entry))
    (hex : (ex.map Entry.key).Nodup) (hd : (d.map Prod.fst).Nodup) :
    (mapPop ex d).1 = ex.map (fun e => (dlookup d e.key).getD e) := by
  induction ex generalizing d with
  | nil => rfl
  | cons e es ih =>
      rw [List.map_cons, List.nodup_cons] at hex
      show (popKey d e.key).1.getD e :: (mapPop es (popKey d e.key).2).1
          = (dlookup d e.key).getD e :: es.map (fun e => (dlookup d e.key).getD e)
      rw [popKey_fst_eq_dlookup]
      congr 1
      rw [ih _ hex.2 (((popKey_snd_sublist d e.key).map Prod.fst).nodup hd)]
      exact List.map_congr_left (fun e' he' => by
        have hne : e'.key ≠ e.key := fun hc => hex.1 (by
          rw [← hc]
          exact List.mem_map_of_mem Entry.key he')
        rw [popKey_snd_eq_filter d e.key hd, dlookup_filter_ne _ _ _ hne])

theorem mapPop_snd_eq (ex : List Entry)
    (d : List ((String × String) × Entry))
    (hex : (ex.map Entry.key).Nodup) (hd : (d.map Prod.fst).Nodup) :
    (mapPop ex d).2 =
      d.filter (fun p => decide (p.1 ∉ ex.map Entry.key)) := by
  induction ex generalizing d with
  | nil =>
      have h0 : (mapPop [] d).2 = d := rfl
      rw [h0]
      refine (List.filter_eq_self.2 (fun p hp => by simp)).symm
  | cons e es ih =>
      rw [List.map_cons, List.nodup_cons] at hex
      show (mapPop es (popKey d e.key).2).2 = _
      rw [ih _ hex.2 (((popKey_snd_sublist d e.key).map Prod.fst).nodup hd),
        popKey_snd_eq_filter d e.key hd, List.filter_filter]
      refine List.filter_congr (fun p hp => ?_)
      by_cases h1 : p.1 = e.key <;>
        by_cases h2 : p.1 ∈ es.map Entry.key <;>
          simp [h1, h2, List.map_cons]

theorem additive_merged_keys_nodup (ex entries : List Entry)
    (hex : (ex.map Entry.key).Nodup) (hent : (entries.map Entry.key).Nodup) :
    ((sortEntries (ex ++ newForYear ex entries)).map Entry.key).Nodup := by
  rw [((sortEntries_perm _).map Entry.key).nodup_iff, List.map_append,
    List.nodup_append]
  refine ⟨hex, ?_, ?_⟩
  · exact ((List.filter_sublist entries).map Entry.key).nodup hent
  · intro a ha hb
    rcases List.mem_map.1 hb with ⟨e, he, rfl⟩
    have hkey := List.of_mem_filter he
    simp only [decide_eq_true_eq] at hkey
    exact hkey ha

theorem processYearAdditive_perm (ex : List Entry) {e₁ e₂ : List Entry}
    (hp : List.Perm e₁ e₂) (hex : (ex.map Entry.key).Nodup)
    (hnd : (e₁.map Entry.key).Nodup) :
    processYearAdditive ex e₁ = processYearAdditive ex e₂ := by
  have hfp : List.Perm (newForYear ex e₁) (newForYear ex e₂) := hp.filter _
  unfold processYearAdditive
  by_cases hemp : (newForYear ex e₁).isEmpty
  · rw [List.isEmpty_iff] at hemp
    have h2 : newForYear ex e₂ = [] := (hemp ▸ hfp).symm.eq_nil
    rw [if_pos (List.isEmpty_iff.2 hemp), if_pos (List.isEmpty_iff.2 h2)]
  · have h2 : ¬ (newForYear ex e₂).isEmpty := by
      rw [List.isEmpty_iff] at hemp ⊢
      intro hc
      exact hemp (hc ▸ hfp).eq_nil
    rw [if_neg hemp, if_neg h2]
    have hnd₂ : (e₂.map Entry.key).Nodup := ((hp.map Entry.key).nodup_iff).1 hnd
    have hsort : sortEntries (ex ++ newForYear ex e₁) =
        sortEntries (ex ++ newForYear ex e₂) := by
      apply sorted_nodup_keys_unique
      · exact ((sortEntries_perm _).trans
          (List.Perm.append_left ex hfp)).trans (sortEntries_perm _).symm
      · exact sortEntries_sorted _
      · exact sortEntries_sorted _
      · exact additive_merged_keys_nodup ex e₁ hex hnd
    rw [hsort, hfp.length_eq]

theorem processYearOverwrite_perm (ex : List Entry) {e₁ e₂ : List Entry}
    (hp : List.Perm e₁ e₂) (hex : (ex.map Entry.key).Nodup)
    (hnd : (e₁.map Entry.key).Nodup) :
    processYearOverwrite ex e₁ = processYearOverwrite ex e₂ := by
  have hnd₂ : (e₂.map Entry.key).Nodup := ((hp.map Entry.key).nodup_iff).1 hnd
  have hd₁ := buildNewKeys_keys_nodup e₁
  have hd₂ := buildNewKeys_keys_nodup e₂
  have hdperm : List.Perm (buildNewKeys e₁) (buildNewKeys e₂) := by
    rw [buildNewKeys_eq_map e₁ hnd, buildNewKeys_eq_map e₂ hnd₂]
    exact hp.map _
  have hnodup₁ := processYearOverwrite_keys_nodup ex e₁ hex
  rw [processYearOverwrite_eq] at hnodup₁
  rw [processYearOverwrite_eq, processYearOverwrite_eq]
  refine Prod.ext ?_ (by rw [hp.length_eq])
  have hfst : (mapPop ex (buildNewKeys e₁)).1
      = (mapPop ex (buildNewKeys e₂)).1 := by
    rw [mapPop_fst_eq _ _ hex hd₁, mapPop_fst_eq _ _ hex hd₂]
    exact List.map_congr_left
      (fun e he => by rw [dlookup_eq_of_perm hdperm hd₁ e.key])
  apply sorted_nodup_keys_unique
  · refine ((sortEntries_perm _).trans ?_).trans (sortEntries_perm _).symm
    refine List.Perm.append (hfst ▸ List.Perm.refl _) ?_
    rw [mapPop_snd_eq _ _ hex hd₁, mapPop_snd_eq _ _ hex hd₂]
    exact (hdperm.filter _).map Prod.snd
  · exact sortEntries_sorted _
  · exact sortEntries_sorted _
  · exact hnodup₁

theorem mergeYearStep_perm (store : YearStore) {R R' : List Entry} (o : Bool)
    (hp : List.Perm R R') (hnd : (R.map Entry.key).Nodup)
    (hInv : InvStore store) (y : String) :
    mergeYearStep store R o y = mergeYearStep store R' o y := by
  have hpy : List.Perm (entriesForYear R y) (entriesForYear R' y) :=
    hp.filter _
  have hndy : ((entriesForYear R y).map Entry.key).Nodup :=
    ((List.filter_sublist R).map Entry.key).nodup hnd
  cases o with
  | true =>
      rw [mergeYearStep_overwrite, mergeYearStep_overwrite,
        processYearOverwrite_perm _ hpy (hInv y) hndy]
  | false =>
      rw [mergeYearStep_additive, mergeYearStep_additive,
        processYearAdditive_perm _ hpy (hInv y) hndy]

theorem yearsOf_perm {R R' : List Entry} (hp : List.Perm R R') :
    yearsOf R = yearsOf R' := by
  apply List.eq_of_perm_of_sorted (r := strLE)
  · exact (List.perm_insertionSort _ _).trans
      (((hp.map Entry.year).dedup).trans (List.perm_insertionSort _ _).symm)
  · exact List.sorted_insertionSort _ _
  · exact List.sorted_insertionSort _ _

theorem merge_into_year_files_perm (store : YearStore) {R R' : List Entry}
    (d o : Bool) (hp : List.Perm R R') (hnd : (R.map Entry.key).Nodup)
    (hInv : InvStore store) :
    merge_into_year_files store R d o = merge_into_year_files store R' d o := by
  have hstep := fun y => mergeYearStep_perm store o hp hnd hInv y
  unfold merge_into_year_files
  rw [yearsOf_perm hp]
  simp only [hstep]

theorem dlookup_getD_key (d : List ((String × String) × Entry))
    (wf : ∀ p ∈ d, p.2.key = p.1) (e : Entry) :
    ((dlookup d e.key).getD e).key = e.key := by
  cases h : dlookup d e.key with
  | none => simp
  | some v =>
      rcases Option.map_eq_some'.1 h with ⟨q, hq, hq2⟩
      have hq1 : q.1 = e.key := by simpa using List.find?_some hq
      have hqmem : q ∈ d := List.mem_of_find?_eq_some hq
      rw [Option.getD_some, ← hq2, wf q hqmem, hq1]

/-- A key-respecting map commutes with filtering on a key. -/
theorem filter_key_map (ex : List Entry) (f : Entry → Entry)
    (hf : ∀ e ∈ ex, (f e).key = e.key) (k : String × String) :
    (ex.map f).filter (fun e => decide (e.key = k)) =
      (ex.filter (fun e => decide (e.key = k))).map f := by
  induction ex with
  | nil => rfl
  | cons e es ih =>
      rw [List.map_cons, List.filter_cons, List.filter_cons]
      have hkey : (f e).key = e.key := hf e (List.mem_cons_self e es)
      by_cases hc : e.key = k
      · rw [if_pos (decide_eq_true (hkey.trans hc)),
          if_pos (decide_eq_true hc), List.map_cons,
          ih (fun e' he' => hf e' (List.mem_cons_of_mem e he'))]
      · rw [if_neg (by simpa [hkey] using hc), if_neg (by simpa using hc),
          ih (fun e' he' => hf e' (List.mem_cons_of_mem e he'))]

theorem filter_key_of_not_mem (ex : List Entry) (k : String × String)
    (h : k ∉ ex.map Entry.key) :
    ex.filter (fun e => decide (e.key = k)) = [] := by
  rw [List.filter_eq_nil_iff]
  intro e he hc
  simp only [decide_eq_true_eq] at hc
  exact h (hc ▸ List.mem_map_of_mem Entry.key he)

theorem filter_key_mem (ex : List Entry) (k : String × String)
    (hnd : (ex.map Entry.key).Nodup) (h : k ∈ ex.map Entry.key) :
    ∃ e₀ ∈ ex, e₀.key = k ∧
      ex.filter (fun e => decide (e.key = k)) = [e₀] := by
  induction ex with
  | nil => simp at h
  | cons e es ih =>
      rw [List.map_cons, List.nodup_cons] at hnd
      rw [List.filter_cons]
      rcases List.mem_cons.1 h with hc | hc
      · refine ⟨e, List.mem_cons_self e es, hc.symm, ?_⟩
        rw [if_pos (decide_eq_true hc.symm),
          filter_key_of_not_mem es k (fun hmem => hnd.1 (hc ▸ hmem))]
      · have hek : e.key ≠ k := fun heq => hnd.1 (heq ▸ hc)
        rcases ih hnd.2 hc with ⟨e₀, he₀, hk₀, hfil⟩
        exact ⟨e₀, List.mem_cons_of_mem e he₀, hk₀,
          by rw [if_neg (by simpa using hek), hfil]⟩

theorem dict_filter_key_of_lookup_none {κ β : Type} [DecidableEq κ]
    (d : List (κ × β)) (k : κ) (h : dlookup d k = none) :
    d.filter (fun p => decide (p.1 = k)) = [] := by
  rw [List.filter_eq_nil_iff]
  intro p hp hc
  simp only [decide_eq_true_eq] at hc
  exact (dlookup_eq_none.1 h) (hc ▸ List.mem_map_of_mem Prod.fst hp)

theorem dict_filter_key_of_lookup_some {κ β : Type} [DecidableEq κ]
    (d : List (κ × β)) (k : κ) (v : β) (hnd : (d.map Prod.fst).Nodup)
    (h : dlookup d k = some v) :
    d.filter (fun p => decide (p.1 = k)) = [(k, v)] := by
  induction d with
  | nil => cases h
  | cons p ps ih =>
      rw [List.map_cons, List.nodup_cons] at hnd
      rw [dlookup_cons] at h
      rw [List.filter_cons]
      by_cases hp : p.1 = k
      · rw [if_pos hp] at h
        rw [if_pos (decide_eq_true hp)]
        have hnone : dlookup ps k = none := by
          rw [dlookup_eq_none]
          exact fun hc => hnd.1 (hp ▸ hc)
        rw [dict_filter_key_of_lookup_none ps k hnone]
        cases h
        rw [← hp, Prod.mk.eta]
      · rw [if_neg hp] at h
        rw [if_neg (by simpa using hp)]
        exact ih hnd.2 h

/-- Filtering dict values on a key equals filtering the bindings. -/
theorem filter_key_values (d : List ((String × String) × Entry))
    (wf : ∀ p ∈ d, p.2.key = p.1) (k : String × String) :
    (d.map Prod.snd).filter (fun e => decide (e.key = k)) =
      (d.filter (fun p => decide (p.1 = k))).map Prod.snd := by
  induction d with
  | nil => rfl
  | cons p ps ih =>
      rw [List.map_cons, List.filter_cons, List.filter_cons]
      have hkey : p.2.key = p.1 := wf p (List.mem_cons_self p ps)
      by_cases hc : p.1 = k
      · rw [if_pos (decide_eq_true (hkey.trans hc)),
          if_pos (decide_eq_true hc), List.map_cons,
          ih (fun q hq => wf q (List.mem_cons_of_mem p hq))]
      · rw [if_neg (by simpa [hkey] using hc), if_neg (by simpa using hc),
          ih (fun q hq => wf q (List.mem_cons_of_mem p hq))]

/-- What a replacing merge leaves, per `(timestamp, metal)` key, in the
merged list: the last input record with that key if the input mentions it,
otherwise the existing records with that key, unchanged. -/
theorem overwrite_filter_key (ex entries : List Entry) (k : String × String)
    (hex : (ex.map Entry.key).Nodup) :
    ((processYearOverwrite ex entries).1).filter
        (fun e => decide (e.key = k)) =
      match (entries.filter (fun e => decide (e.key = k))).getLast? with
      | some r => [r]
      | none => ex.filter (fun e => decide (e.key = k)) := by
  have hd := buildNewKeys_keys_nodup entries
  have hwf := buildNewKeys_wf entries
  have hperm : List.Perm (((processYearOverwrite ex entries).1).filter
      (fun e => decide (e.key = k)))
      ((((mapPop ex (buildNewKeys entries)).1).filter
          (fun e => decide (e.key = k))) ++
        ((((mapPop ex (buildNewKeys entries)).2).map Prod.snd).filter
          (fun e => decide (e.key = k)))) := by
    rw [processYearOverwrite_eq, ← List.filter_append]
    exact (sortEntries_perm _).filter _
  have hm1 : ((mapPop ex (buildNewKeys entries)).1).filter
      (fun e => decide (e.key = k)) =
      (ex.filter (fun e => decide (e.key = k))).map
        (fun e => (dlookup (buildNewKeys entries) e.key).getD e) := by
    rw [mapPop_fst_eq ex _ hex hd]
    exact filter_key_map ex _ (fun e he => dlookup_getD_key _ hwf e) k
  have hrem : (((mapPop ex (buildNewKeys entries)).2).map Prod.snd).filter
      (fun e => decide (e.key = k)) =
      (((mapPop ex (buildNewKeys entries)).2).filter
        (fun p => decide (p.1 = k))).map Prod.snd :=
    filter_key_values _ (fun p hp => hwf p ((mapPop_snd_sublist _ _).subset hp)) k
  cases hlast : (entries.filter (fun e => decide (e.key = k))).getLast? with
  | some r =>
      have hlook : dlookup (buildNewKeys entries) k = some r := by
        rw [dlookup_buildNewKeys, hlast]
      by_cases hkex : k ∈ ex.map Entry.key
      · rcases filter_key_mem ex k hex hkex with ⟨e₀, he₀, hk₀, hfil⟩
        have hm1' : ((mapPop ex (buildNewKeys entries)).1).filter
            (fun e => decide (e.key = k)) = [r] := by
          rw [hm1, hfil, List.map_cons, List.map_nil, hk₀, hlook,
            Option.getD_some]
        have hrem' : (((mapPop ex (buildNewKeys entries)).2).map
            Prod.snd).filter (fun e => decide (e.key = k)) = [] := by
          rw [hrem, mapPop_snd_eq ex _ hex hd, List.filter_filter]
          have hnil : (buildNewKeys entries).filter
              (fun p => decide (p.1 = k) && decide (p.1 ∉ ex.map Entry.key))
                = [] := by
            rw [List.filter_eq_nil_iff]
            intro p hp hc
            simp only [Bool.and_eq_true, decide_eq_true_eq] at hc
            exact hc.2 (hc.1 ▸ hkex)
          rw [hnil, List.map_nil]
        rw [hm1', hrem'] at hperm
        exact List.perm_singleton.1 (by simpa using hperm)
      · have hm1' : ((mapPop ex (buildNewKeys entries)).1).filter
            (fun e => decide (e.key = k)) = [] := by
          rw [hm1, filter_key_of_not_mem ex k hkex, List.map_nil]
        have hrem' : (((mapPop ex (buildNewKeys entries)).2).map
            Prod.snd).filter (fun e => decide (e.key = k)) = [r] := by
          rw [hrem, mapPop_snd_eq ex _ hex hd, List.filter_filter]
          have heq : (buildNewKeys entries).filter
              (fun p => decide (p.1 = k) && decide (p.1 ∉ ex.map Entry.key))
              = (buildNewKeys entries).filter (fun p => decide (p.1 = k)) := by
            refine List.filter_congr (fun p hp => ?_)
            by_cases hc : p.1 = k
            · simp [hc, hkex]
            · simp [hc]
          rw [heq, dict_filter_key_of_lookup_some _ k r hd hlook,
            List.map_cons, List.map_nil]
        rw [hm1', hrem'] at hperm
        exact List.perm_singleton.1 (by simpa using hperm)
  | none =>
      have hlook : dlookup (buildNewKeys entries) k = none := by
        rw [dlookup_buildNewKeys, hlast]
      have hm1' : ((mapPop ex (buildNewKeys entries)).1).filter
          (fun e => decide (e.key = k)) =
          ex.filter (fun e => decide (e.key = k)) := by
        rw [hm1]
        have hid : ∀ e' ∈ ex.filter (fun e => decide (e.key = k)),
            (dlookup (buildNewKeys entries) e'.key).getD e' = e' := by
          intro e' he'
          have hkey : e'.key = k := by
            simpa using List.of_mem_filter he'
          rw [hkey, hlook, Option.getD_none]
        rw [List.map_congr_left hid]
        simp
      have hrem' : (((mapPop ex (buildNewKeys entries)).2).map
          Prod.snd).filter (fun e => decide (e.key = k)) = [] := by
        rw [hrem, mapPop_snd_eq ex _ hex hd, List.filter_filter]
        have hnil : (buildNewKeys entries).filter
            (fun p => decide (p.1 = k) && decide (p.1 ∉ ex.map Entry.key))
              = [] := by
          rw [List.filter_eq_nil_iff]
          intro p hp hc
          simp only [Bool.and_eq_true, decide_eq_true_eq] at hc
          exact (dlookup_eq_none.1 hlook)
            (hc.1 ▸ List.mem_map_of_mem Prod.fst hp)
        rw [hnil, List.map_nil]
      rw [hm1', hrem'] at hperm
      rw [List.append_nil] at hperm
      by_cases hkex : k ∈ ex.map Entry.key
      · rcases filter_key_mem ex k hex hkex with ⟨e₀, he₀, hk₀, hfil⟩
        rw [hfil] at hperm ⊢
        exact List.perm_singleton.1 hperm
      · rw [filter_key_of_not_mem ex k hkex] at hperm ⊢
        exact hperm.eq_nil

theorem key_year (e : Entry) {k : String × String} (h : e.key = k) :
    e.year = strTake k.1 4 := by
  have ht : e.timestamp = k.1 := congrArg Prod.fst h
  rw [Entry.year, ht]

theorem filter_key_entriesForYear (R : List Entry) (k : String × String) :
    (entriesForYear R (strTake k.1 4)).filter (fun e => decide (e.key = k)) =
      R.filter (fun e => decide (e.key = k)) := by
  rw [entriesForYear, List.filter_filter]
  refine List.filter_congr (fun e he => ?_)
  by_cases hc : e.key = k
  · simp [hc, key_year e hc]
  · simp [hc]

/-- Per-key content of the archive after one persisted replacing merge:
the last input record with that key replaces (or is appended for) it. -/
theorem runMerge_overwrite_filter_key (store : YearStore) (R : List Entry)
    (k : String × String)
    (hInvY : ((store (strTake k.1 4)).map Entry.key).Nodup)
    (hne : R.filter (fun e => decide (e.key = k)) ≠ []) :
    ((runMerge store R false true) (strTake k.1 4)).filter
        (fun e => decide (e.key = k)) =
      [(R.filter (fun e => decide (e.key = k))).getLast hne] := by
  obtain ⟨e, he⟩ := List.exists_mem_of_ne_nil _ hne
  have heR : e ∈ R := List.mem_of_mem_filter he
  have hek : e.key = k := by simpa using List.of_mem_filter he
  have hy : strTake k.1 4 ∈ yearsOf R := by
    rw [mem_yearsOf]
    exact (key_year e hek) ▸ List.mem_map_of_mem Entry.year heR
  rw [runMerge_apply, if_pos hy, mergeYearStep_overwrite, Option.getD_some,
    overwrite_filter_key _ _ k hInvY, filter_key_entriesForYear,
    List.getLast?_eq_getLast _ hne]

/-- In replacing mode the per-year reported count is the raw input count
for that year. -/
theorem overwrite_results (store : YearStore) (R : List Entry) (d : Bool) :
    (merge_into_year_files store R d true).results =
      (yearsOf R).map (fun y => (y, (entriesForYear R y).length)) := by
  show (yearsOf R).map
      (fun y => (y, (mergeYearStep store R true y).2)) = _
  refine List.map_congr_left (fun y hy => ?_)
  rw [mergeYearStep_overwrite]
  rfl

/-- Every list handed to `save_year_file` by the merge is freshly sorted. -/
theorem writes_sorted (store : YearStore) (R : List Entry) (d o : Bool) :
    ∀ w ∈ (merge_into_year_files store R d o).writes,
      (w.2).Pairwise entryLE := by
  intro w hw
  cases d with
  | true => simp [merge_into_year_files] at hw
  | false =>
      rcases w with ⟨y, m⟩
      rcases (mem_writes_iff store R o y m).1 hw with ⟨hy, hstep⟩
      cases o with
      | true =>
          rw [mergeYearStep_overwrite] at hstep
          simp only [Option.some.injEq] at hstep
          rw [← hstep, processYearOverwrite_eq]
          exact sortEntries_sorted _
      | false =>
          rw [mergeYearStep_additive] at hstep
          cases hadd : processYearAdditive (store y) (entriesForYear R y) with
          | none => rw [hadd] at hstep; cases hstep
          | some r =>
              rw [hadd] at hstep
              simp only [Option.some.injEq] at hstep
              rw [← hstep, (processYearAdditive_some_fst hadd).1]
              exact sortEntries_sorted _

/-- C3, counterexample: with an input that repeats a `(timestamp, metal)`
key (with different spots), merging the two permuted orders of the same
input produces different files, so byte-identical output fails for
arbitrary permuted inputs. -/
theorem merge_not_permutation_invariant :
    List.Perm [cexEntry, cexEntryB] [cexEntryB, cexEntry] ∧
    (merge_into_year_files emptyStore [cexEntry, cexEntryB]
        false false).writes ≠
      (merge_into_year_files emptyStore [cexEntryB, cexEntry]
        false false).writes := by
  exact ⟨List.Perm.swap _ _ _, by decide⟩

/-- C3 (amended): every year file persisted by any merge call — any
store, any input, either mode — is sorted ascending by
`(timestamp, metal)` (metal compared lexically); and, for a starting
archive satisfying the no-duplicate-key invariant, two inputs that are
permutations of each other with pairwise-distinct keys produce the same
writes and the same results — hence byte-identical files. -/
theorem merge_deterministic_ordering :
    (∀ (store : YearStore) (R : List Entry) (d o : Bool),
      ∀ w ∈ (merge_into_year_files store R d o).writes,
        (w.2).Pairwise entryLE) ∧
    (∀ (store : YearStore) (R R' : List Entry) (d o : Bool),
      List.Perm R R' → (R.map Entry.key).Nodup → InvStore store →
      merge_into_year_files store R d o =
        merge_into_year_files store R' d o) :=
  ⟨fun store R d o => writes_sorted store R d o,
    fun store R R' d o hp hnd hInv =>
      merge_into_year_files_perm store d o hp hnd hInv⟩

/-- Witness: the C3 theorem's sortedness half at a concrete
duplicate-key input (where the permutation half does not apply), and its
permutation half at a concrete permuted pair of duplicate-free inputs. -/
theorem merge_deterministic_ordering_witness :
    (∀ w ∈ (merge_into_year_files emptyStore [cexEntry, cexEntryB]
        false false).writes, (w.2).Pairwise entryLE) ∧
    merge_into_year_files emptyStore [cexEntry, cexEntryC] false false =
      merge_into_year_files emptyStore [cexEntryC, cexEntry] false false :=
  ⟨merge_deterministic_ordering.1 emptyStore [cexEntry, cexEntryB]
      false false,
    merge_deterministic_ordering.2 emptyStore [cexEntry, cexEntryC]
      [cexEntryC, cexEntry] false false (List.Perm.swap _ _ _) (by decide)
      (fun y => by simp [emptyStore])⟩

/-- C4: if the year's archive (duplicate-free, per the data model) holds
exactly one record with key `(t, Gold)`, of spot 2000.00, and a replacing
merge is run with an input whose records with that key are exactly one
record `r` of spot 2050.00, the resulting archive holds exactly `[r]` at
that key (count for the key does not increase, spot becomes 2050.00), and
the reported count for every year is the raw input count for that year. -/
theorem replacing_merge_correctness (store : YearStore) (R : List Entry)
    (t : String) (e₀ r : Entry)
    (hInvY : ((store (strTake t 4)).map Entry.key).Nodup)
    (hex : (store (strTake t 4)).filter
      (fun e => decide (e.key = (t, "Gold"))) = [e₀])
    (he₀ : e₀.spot = 2000)
    (hr : R.filter (fun e => decide (e.key = (t, "Gold"))) = [r])
    (hrs : r.spot = 2050) :
    ((runMerge store R false true) (strTake t 4)).filter
        (fun e => decide (e.key = (t, "Gold"))) = [r] ∧
    r.spot = 2050 ∧
    (merge_into_year_files store R false true).results =
      (yearsOf R).map (fun y => (y, (entriesForYear R y).length)) := by
  have hne : R.filter (fun e => decide (e.key = (t, "Gold"))) ≠ [] := by
    rw [hr]
    exact List.cons_ne_nil r []
  refine ⟨?_, hrs, overwrite_results store R false⟩
  rw [runMerge_overwrite_filter_key store R (t, "Gold") hInvY hne]
  have h1 : some ((R.filter
      (fun e => decide (e.key = (t, "Gold")))).getLast hne) = some r := by
    rw [← List.getLast?_eq_getLast _ hne, hr]
    rfl
  rw [Option.some.injEq] at h1
  rw [h1]

/-- Witness: the C4 theorem at the concrete 2000.00 → 2050.00 scenario. -/
theorem replacing_merge_correctness_witness :
    ((runMerge cexStoreC4 [cexGold2050] false true)
        (strTake "2026-01-02 12:00:00" 4)).filter
        (fun e => decide (e.key = ("2026-01-02 12:00:00", "Gold")))
      = [cexGold2050] ∧
    cexGold2050.spot = 2050 ∧
    (merge_into_year_files cexStoreC4 [cexGold2050] false true).results =
      (yearsOf [cexGold2050]).map
        (fun y => (y, (entriesForYear [cexGold2050] y).length)) := by
  refine replacing_merge_correctness cexStoreC4 [cexGold2050]
    "2026-01-02 12:00:00" cexGold2000 cexGold2050 ?_ ?_ ?_ ?_ ?_
  · have h4 : strTake "2026-01-02 12:00:00" 4 = "2026" := by decide
    rw [h4]
    have hs : cexStoreC4 "2026" = [cexGold2000] := by decide
    rw [hs]
    simp
  · have h4 : strTake "2026-01-02 12:00:00" 4 = "2026" := by decide
    rw [h4]
    decide
  · decide
  · decide
  · decide

/-- C10: in replacing mode, for any key `k` of the (well-formed) archive's
year, the merged archive holds at most one record with key `k`, namely the
last input record with that key; meanwhile the reported count per year is
the raw input count, duplicates included. -/
theorem overwrite_duplicate_input_last_wins (store : YearStore)
    (R : List Entry) (k : String × String)
    (hInvY : ((store (strTake k.1 4)).map Entry.key).Nodup)
    (hne : R.filter (fun e => decide (e.key = k)) ≠ []) :
    ((runMerge store R false true) (strTake k.1 4)).filter
        (fun e => decide (e.key = k)) =
      [(R.filter (fun e => decide (e.key = k))).getLast hne] ∧
    (merge_into_year_files store R false true).results =
      (yearsOf R).map (fun y => (y, (entriesForYear R y).length)) :=
  ⟨runMerge_overwrite_filter_key store R k hInvY hne,
    overwrite_results store R false⟩

/-- Witness: the C10 theorem at a concrete input that repeats the key
`("2026-01-02 12:00:00", "Gold")` with two different spots. -/
theorem overwrite_duplicate_input_last_wins_witness :
    ((runMerge emptyStore [cexEntry, cexEntryB] false true)
        (strTake "2026-01-02 12:00:00" 4)).filter
        (fun e => decide (e.key = ("2026-01-02 12:00:00", "Gold"))) =
      [([cexEntry, cexEntryB].filter (fun e =>
          decide (e.key = ("2026-01-02 12:00:00", "Gold")))).getLast
        (by decide)] ∧
    (merge_into_year_files emptyStore [cexEntry, cexEntryB]
        false true).results =
      (yearsOf [cexEntry, cexEntryB]).map
        (fun y => (y, (entriesForYear [cexEntry, cexEntryB] y).length)) :=
  overwrite_duplicate_input_last_wins emptyStore [cexEntry, cexEntryB]
    ("2026-01-02 12:00:00", "Gold") (by simp [emptyStore]) (by decide)

/-- C5: hourly cells with `overwrite=True` always reflect the second
write (both writes returning `True`); an existing hourly cell with
`overwrite=False` is not written and returns `False`; a 15-minute cell is
written once (`True`) and a second write is a refused no-op (`False`),
leaving the first write's content. -/
theorem cell_write_policies (tree : Tree) (A B : List Entry)
    (date_obj : Date) (hour_str minute_str : String)
    (hfresh : tree (min15Path date_obj hour_str minute_str) = none) :
    (((save_hourly_file ((save_hourly_file tree A date_obj hour_str
          true).1) B date_obj hour_str true).1)
        (hourlyPath date_obj hour_str) = some B) ∧
    (save_hourly_file tree A date_obj hour_str true).2 = true ∧
    ((save_hourly_file ((save_hourly_file tree A date_obj hour_str
        true).1) B date_obj hour_str true).2 = true) ∧
    (∀ X, tree (hourlyPath date_obj hour_str) = some X →
      save_hourly_file tree A date_obj hour_str false = (tree, false)) ∧
    ((save_15min_file tree A date_obj hour_str minute_str).2 = true) ∧
    ((save_15min_file tree A date_obj hour_str minute_str).1
        (min15Path date_obj hour_str minute_str) = some A) ∧
    (save_15min_file
        ((save_15min_file tree A date_obj hour_str minute_str).1)
        B date_obj hour_str minute_str =
      ((save_15min_file tree A date_obj hour_str minute_str).1, false)) := by
  refine ⟨?_, ?_, ?_, ?_, ?_, ?_, ?_⟩
  · simp [save_hourly_file]
  · simp [save_hourly_file]
  · simp [save_hourly_file]
  · intro X hX
    simp [save_hourly_file, hX]
  · simp [save_15min_file, hfresh]
  · simp [save_15min_file, hfresh]
  · simp [save_15min_file, hfresh]

/-- Witness: the C5 theorem at a concrete fresh tree and cell. -/
theorem cell_write_policies_witness :
    ((((save_hourly_file ((save_hourly_file (fun _ => none) [cexEntry]
          ⟨2026, 1, 2⟩ "05" true).1) [] ⟨2026, 1, 2⟩ "05" true).1)
        (hourlyPath ⟨2026, 1, 2⟩ "05") = some []) ∧
    (save_hourly_file (fun _ => none) [cexEntry] ⟨2026, 1, 2⟩ "05"
      true).2 = true ∧
    ((save_hourly_file ((save_hourly_file (fun _ => none) [cexEntry]
        ⟨2026, 1, 2⟩ "05" true).1) [] ⟨2026, 1, 2⟩ "05" true).2 = true) ∧
    (∀ X, (fun _ => (none : Option (List Entry)))
        (hourlyPath ⟨2026, 1, 2⟩ "05") = some X →
      save_hourly_file (fun _ => none) [cexEntry] ⟨2026, 1, 2⟩ "05" false
        = (fun _ => none, false)) ∧
    ((save_15min_file (fun _ => none) [cexEntry] ⟨2026, 1, 2⟩ "05"
      "07").2 = true) ∧
    ((save_15min_file (fun _ => none) [cexEntry] ⟨2026, 1, 2⟩ "05" "07").1
        (min15Path ⟨2026, 1, 2⟩ "05" "07") = some [cexEntry]) ∧
    (save_15min_file ((save_15min_file (fun _ => none) [cexEntry]
        ⟨2026, 1, 2⟩ "05" "07").1) [] ⟨2026, 1, 2⟩ "05" "07" =
      ((save_15min_file (fun _ => none) [cexEntry]
        ⟨2026, 1, 2⟩ "05" "07").1, false))) :=
  cell_write_policies (fun _ => none) [cexEntry] [] ⟨2026, 1, 2⟩ "05" "07"
    rfl

theorem invert_rates_keys (rates : List (String × ℚ)) :
    (invert_rates rates).map Prod.fst =
      (rates.filter (fun p => decide (p.2 ≠ 0))).map Prod.fst := by
  rw [invert_rates, List.map_map]
  exact List.map_congr_left (fun p hp => rfl)

theorem invert_rates_keys_sublist (rates : List (String × ℚ)) :
    List.Sublist ((invert_rates rates).map Prod.fst)
      (rates.map Prod.fst) := by
  rw [invert_rates_keys]
  exact (List.filter_sublist rates).map Prod.fst

theorem dlookup_invert_of_none (rates : List (String × ℚ)) (s : String)
    (h : dlookup rates s = none) :
    dlookup (invert_rates rates) s = none := by
  rw [dlookup_eq_none] at h ⊢
  exact fun hc => h ((invert_rates_keys_sublist rates).subset hc)

theorem invert_rates_cons_zero {p : String × ℚ} (ps : List (String × ℚ))
    (hz : p.2 = 0) : invert_rates (p :: ps) = invert_rates ps := by
  rw [invert_rates, invert_rates, List.filter_cons,
    if_neg (by simpa using hz)]

theorem invert_rates_cons_ne {p : String × ℚ} (ps : List (String × ℚ))
    (hz : p.2 ≠ 0) : invert_rates (p :: ps) =
      (p.1, round2 (1 / p.2)) :: invert_rates ps := by
  rw [invert_rates, invert_rates, List.filter_cons,
    if_pos (decide_eq_true hz), List.map_cons]

theorem dlookup_invert_of_zero (rates : List (String × ℚ)) (s : String)
    (hnd : (rates.map Prod.fst).Nodup) (h : dlookup rates s = some 0) :
    dlookup (invert_rates rates) s = none := by
  induction rates with
  | nil => cases h
  | cons p ps ih =>
      rw [List.map_cons, List.nodup_cons] at hnd
      rw [dlookup_cons] at h
      by_cases hp : p.1 = s
      · rw [if_pos hp] at h
        have hz : p.2 = 0 := by simpa using h
        rw [invert_rates_cons_zero ps hz, dlookup_eq_none]
        intro hc
        exact hnd.1 (hp ▸ (invert_rates_keys_sublist ps).subset hc)
      · rw [if_neg hp] at h
        by_cases hz : p.2 = 0
        · rw [invert_rates_cons_zero ps hz]
          exact ih hnd.2 h
        · rw [invert_rates_cons_ne ps hz, dlookup_cons, if_neg hp]
          exact ih hnd.2 h

theorem dlookup_invert_of_ne (rates : List (String × ℚ)) (s : String)
    (r : ℚ) (hnd : (rates.map Prod.fst).Nodup)
    (h : dlookup rates s = some r) (hr : r ≠ 0) :
    dlookup (invert_rates rates) s = some (round2 (1 / r)) := by
  induction rates with
  | nil => cases h
  | cons p ps ih =>
      rw [List.map_cons, List.nodup_cons] at hnd
      rw [dlookup_cons] at h
      by_cases hp : p.1 = s
      · rw [if_pos hp] at h
        have hpr : p.2 = r := by simpa using h
        rw [invert_rates_cons_ne ps (hpr ▸ hr), dlookup_cons, if_pos hp,
          hpr]
      · rw [if_neg hp] at h
        by_cases hz : p.2 = 0
        · rw [invert_rates_cons_zero ps hz]
          exact ih hnd.2 h
        · rw [invert_rates_cons_ne ps hz, dlookup_cons, if_neg hp]
          exact ih hnd.2 h

theorem mem_transform {rates : List (String × ℚ)} {ds : String}
    {e : Entry} :
    e ∈ transform_latest_to_seed rates ds ↔
      ∃ s ∈ ["XAU", "XAG", "XPT", "XPD"],
        dlookup (invert_rates rates) s = some e.spot ∧
        e.metal = (dlookup SYMBOL_TO_METAL s).getD "" ∧
        e.source = "seed" ∧ e.provider = "StakTrakr" ∧
        e.timestamp = ds ++ " 12:00:00" := by
  rw [transform_latest_to_seed, List.mem_filterMap]
  constructor
  · rintro ⟨s, hs, hmatch⟩
    cases h : dlookup (invert_rates rates) s with
    | none => rw [h] at hmatch; cases hmatch
    | some v =>
        rw [h] at hmatch
        cases hmatch
        exact ⟨s, hs, h, rfl, rfl, rfl, rfl⟩
  · rintro ⟨s, hs, hl, hm, hsrc, hp, ht⟩
    refine ⟨s, hs, ?_⟩
    rw [hl]
    rcases e with ⟨sp, m, src, pr, ts⟩
    simp only at hl hm hsrc hp ht
    subst hm
    subst hsrc
    subst hp
    subst ht
    rfl

theorem symbol_metal_inj :
    ∀ s₁ ∈ ["XAU", "XAG", "XPT", "XPD"],
      ∀ s₂ ∈ ["XAU", "XAG", "XPT", "XPD"],
        (dlookup SYMBOL_TO_METAL s₁).getD "" =
          (dlookup SYMBOL_TO_METAL s₂).getD "" → s₁ = s₂ := by decide

theorem filterMap_map_sublist {α β γ : Type} (f : α → Option β)
    (g : β → γ) (h : α → γ) (l : List α)
    (hfg : ∀ a b, f a = some b → g b = h a) :
    List.Sublist ((l.filterMap f).map g) (l.map h) := by
  induction l with
  | nil => simp
  | cons a l ih =>
      rw [List.filterMap_cons]
      cases hfa : f a with
      | none =>
          rw [List.map_cons]
          exact ih.cons _
      | some b =>
          rw [List.map_cons, List.map_cons, hfg a b hfa]
          exact ih.cons₂ _

/-- C7: the transform never divides by zero — symbols with a zero or
missing rate yield no record; every surviving known symbol yields a
record with spot `round2 (1/rate)`; the output follows the fixed
canonical metal order regardless of the input mapping's order; and the
two concrete cases: rate `1/2000` gives Gold spot `2000.00`, rate `0`
gives an empty output. -/
theorem rate_transform_correct (rates : List (String × ℚ)) (ds : String)
    (hnd : (rates.map Prod.fst).Nodup) :
    (∀ s ∈ ["XAU", "XAG", "XPT", "XPD"],
      (dlookup rates s = none ∨ dlookup rates s = some 0) →
      ∀ e ∈ transform_latest_to_seed rates ds,
        e.metal ≠ (dlookup SYMBOL_TO_METAL s).getD "") ∧
    (∀ s ∈ ["XAU", "XAG", "XPT", "XPD"], ∀ r : ℚ,
      dlookup rates s = some r → r ≠ 0 →
      (⟨round2 (1 / r), (dlookup SYMBOL_TO_METAL s).getD "", "seed",
        "StakTrakr", ds ++ " 12:00:00"⟩ : Entry)
        ∈ transform_latest_to_seed rates ds) ∧
    (List.Sublist ((transform_latest_to_seed rates ds).map Entry.metal)
      ["Gold", "Silver", "Platinum", "Palladium"]) ∧
    (∀ rates', List.Perm rates rates' →
      transform_latest_to_seed rates ds =
        transform_latest_to_seed rates' ds) ∧
    dlookup (invert_rates [("XAU", 1/2000)]) "XAU" = some 2000 ∧
    transform_latest_to_seed [("XAU", (0 : ℚ))] ds = [] := by
  refine ⟨?_, ?_, ?_, ?_, ?_, rfl⟩
  · intro s hs hrate e he hmetal
    rcases mem_transform.1 he with ⟨s', hs', hl', hm', _, _, _⟩
    have hss : s' = s := symbol_metal_inj s' hs' s hs (hm' ▸ hmetal)
    subst hss
    rcases hrate with h0 | h0
    · rw [dlookup_invert_of_none rates s' h0] at hl'
      cases hl'
    · rw [dlookup_invert_of_zero rates s' hnd h0] at hl'
      cases hl'
  · intro s hs r hr hrz
    exact mem_transform.2
      ⟨s, hs, dlookup_invert_of_ne rates s r hnd hr hrz, rfl, rfl, rfl, rfl⟩
  · have hsub := filterMap_map_sublist
      (fun symbol => match dlookup (invert_rates rates) symbol with
        | none => none
        | some spotv => some
            { spot := spotv,
              metal := (dlookup SYMBOL_TO_METAL symbol).getD "",
              source := "seed", provider := "StakTrakr",
              timestamp := ds ++ " 12:00:00" })
      Entry.metal (fun s => (dlookup SYMBOL_TO_METAL s).getD "")
      ["XAU", "XAG", "XPT", "XPD"]
      (fun a b hab => by
        simp only at hab
        cases h : dlookup (invert_rates rates) a with
        | none => rw [h] at hab; cases hab
        | some v =>
            rw [h] at hab
            cases hab
            rfl)
    exact hsub
  · intro rates' hperm
    have hinv : List.Perm (invert_rates rates) (invert_rates rates') :=
      (hperm.filter _).map _
    have hinvnd : ((invert_rates rates).map Prod.fst).Nodup :=
      (invert_rates_keys_sublist rates).nodup hnd
    have hlk : ∀ s, dlookup (invert_rates rates) s =
        dlookup (invert_rates rates') s :=
      fun s => dlookup_eq_of_perm hinv hinvnd s
    rw [transform_latest_to_seed, transform_latest_to_seed]
    simp only [hlk]
  · have hz : ((1 : ℚ)/2000) ≠ 0 := by norm_num
    rw [show ([("XAU", (1 : ℚ)/2000)]) = (("XAU", (1 : ℚ)/2000)) :: [] from
      rfl, invert_rates_cons_ne [] hz, dlookup_cons, if_pos rfl]
    have h2000 : (1 : ℚ)/(1/2000) = 2000 := by norm_num
    rw [show (("XAU", (1 : ℚ)/2000).2) = (1 : ℚ)/2000 from rfl, h2000,
      round2, show ((2000 : ℚ) * 100) = ((200000 : ℕ) : ℚ) by norm_num,
      round_natCast]
    norm_num

/-- Witness: the C7 theorem on a concrete one-symbol rates mapping. -/
theorem rate_transform_correct_witness :
    (∀ s ∈ ["XAU", "XAG", "XPT", "XPD"],
      (dlookup rates₀ s = none ∨ dlookup rates₀ s = some 0) →
      ∀ e ∈ transform_latest_to_seed rates₀ "2026-01-02",
        e.metal ≠ (dlookup SYMBOL_TO_METAL s).getD "") ∧
    (∀ s ∈ ["XAU", "XAG", "XPT", "XPD"], ∀ r : ℚ,
      dlookup rates₀ s = some r → r ≠ 0 →
      (⟨round2 (1 / r), (dlookup SYMBOL_TO_METAL s).getD "", "seed",
        "StakTrakr", "2026-01-02" ++ " 12:00:00"⟩ : Entry)
        ∈ transform_latest_to_seed rates₀ "2026-01-02") ∧
    (List.Sublist
      ((transform_latest_to_seed rates₀ "2026-01-02").map Entry.metal)
      ["Gold", "Silver", "Platinum", "Palladium"]) ∧
    (∀ rates', List.Perm rates₀ rates' →
      transform_latest_to_seed rates₀ "2026-01-02" =
        transform_latest_to_seed rates' "2026-01-02") ∧
    dlookup (invert_rates [("XAU", 1/2000)]) "XAU" = some 2000 ∧
    transform_latest_to_seed [("XAU", (0 : ℚ))] "2026-01-02" = [] :=
  rate_transform_correct rates₀ "2026-01-02" (by simp [rates₀])

theorem chunks_pos {s e : ℤ} (h : s ≤ e) :
    chunks s e = (s, min (s + (MAX_DAYS_PER_REQUEST - 1)) e) ::
      chunks (min (s + (MAX_DAYS_PER_REQUEST - 1)) e + 1) e := by
  rw [chunks, dif_pos h]

theorem chunks_neg {s e : ℤ} (h : ¬ s ≤ e) : chunks s e = [] := by
  rw [chunks, dif_neg h]

/-- Structure of the chunk list: spans fit the limit, chunks are
consecutive, and they cover `[s, e]` exactly. -/
theorem chunks_spec (s e : ℤ) (hse : s ≤ e) :
    (∀ c ∈ chunks s e, c.1 ≤ c.2 ∧
      c.2 - c.1 + 1 ≤ MAX_DAYS_PER_REQUEST) ∧
    (chunks s e).Chain' (fun c c' => c'.1 = c.2 + 1) ∧
    (∀ x : ℤ, (s ≤ x ∧ x ≤ e) ↔
      ∃ c ∈ chunks s e, c.1 ≤ x ∧ x ≤ c.2) := by
  by_cases hA : e ≤ s + (MAX_DAYS_PER_REQUEST - 1)
  · have hmin : min (s + (MAX_DAYS_PER_REQUEST - 1)) e = e := min_eq_right hA
    have hnil : chunks (e + 1) e = [] := chunks_neg (by omega)
    have hch : chunks s e = [(s, e)] := by
      rw [chunks_pos hse, hmin, hnil]
    rw [hch]
    refine ⟨?_, List.chain'_singleton _, ?_⟩
    · intro c hc
      rcases List.mem_singleton.1 hc with rfl
      exact ⟨hse, by simp only [MAX_DAYS_PER_REQUEST] at hA ⊢; omega⟩
    · intro x
      constructor
      · intro hx
        exact ⟨(s, e), List.mem_singleton_self _, hx.1, hx.2⟩
      · rintro ⟨c, hc, h1, h2⟩
        rcases List.mem_singleton.1 hc with rfl
        exact ⟨h1, h2⟩
  · have hmin : min (s + (MAX_DAYS_PER_REQUEST - 1)) e
        = s + (MAX_DAYS_PER_REQUEST - 1) := min_eq_left (by omega)
    have hse2 : min (s + (MAX_DAYS_PER_REQUEST - 1)) e + 1 ≤ e := by
      rw [hmin]; omega
    obtain ⟨ih1, ih2, ih3⟩ :=
      chunks_spec (min (s + (MAX_DAYS_PER_REQUEST - 1)) e + 1) e hse2
    rw [hmin] at ih1 ih2 ih3
    have hch : chunks s e = (s, s + (MAX_DAYS_PER_REQUEST - 1)) ::
        chunks (s + (MAX_DAYS_PER_REQUEST - 1) + 1) e := by
      rw [chunks_pos hse, hmin]
    rw [hch]
    refine ⟨?_, ?_, ?_⟩
    · intro c hc
      rcases List.mem_cons.1 hc with rfl | hc
      · exact ⟨by simp only [MAX_DAYS_PER_REQUEST]; omega,
          by simp only [MAX_DAYS_PER_REQUEST]; omega⟩
      · exact ih1 c hc
    · refine List.chain'_cons'.2 ⟨?_, ih2⟩
      intro b hb
      rw [chunks_pos (by omega : s + (MAX_DAYS_PER_REQUEST - 1) + 1 ≤ e)]
        at hb
      simp only [List.head?_cons, Option.mem_def, Option.some.injEq] at hb
      rw [← hb]
    · intro x
      constructor
      · intro hx
        by_cases hxm : x ≤ s + (MAX_DAYS_PER_REQUEST - 1)
        · exact ⟨(s, s + (MAX_DAYS_PER_REQUEST - 1)),
            List.mem_cons_self _ _, hx.1, hxm⟩
        · obtain ⟨c, hc, hcx⟩ := (ih3 x).1 ⟨by omega, hx.2⟩
          exact ⟨c, List.mem_cons_of_mem _ hc, hcx⟩
      · rintro ⟨c, hc, h1, h2⟩
        rcases List.mem_cons.1 hc with rfl | hc
        · exact ⟨h1, by omega⟩
        · have hmem := (ih3 x).2 ⟨c, hc, h1, h2⟩
          have h365 : (1 : ℤ) ≤ MAX_DAYS_PER_REQUEST := by
            simp only [MAX_DAYS_PER_REQUEST]
            omega
          exact ⟨by omega, hmem.2⟩
termination_by (e + 1 - s).toNat
decreasing_by
  simp only [MAX_DAYS_PER_REQUEST] at *
  omega

/-- C8: each chunk spans at most `MAX_DAYS_PER_REQUEST` days, consecutive
chunks abut (each starts the day after the previous chunk's end), the
chunks cover `[s, e]` exactly (one upstream request per chunk), and a
range of exactly one day more than the maximum span yields exactly two
chunks, the second starting the day after the first chunk's end. -/
theorem range_fetch_chunking (s e : ℤ) (hse : s ≤ e) :
    (∀ c ∈ chunks s e, c.1 ≤ c.2 ∧
      c.2 - c.1 + 1 ≤ MAX_DAYS_PER_REQUEST) ∧
    (chunks s e).Chain' (fun c c' => c'.1 = c.2 + 1) ∧
    (∀ x : ℤ, (s ≤ x ∧ x ≤ e) ↔
      ∃ c ∈ chunks s e, c.1 ≤ x ∧ x ≤ c.2) ∧
    (e - s = MAX_DAYS_PER_REQUEST →
      chunks s e = [(s, s + (MAX_DAYS_PER_REQUEST - 1)),
        (s + MAX_DAYS_PER_REQUEST, e)] ∧
      (chunks s e).length = 2 ∧
      s + MAX_DAYS_PER_REQUEST = (s + (MAX_DAYS_PER_REQUEST - 1)) + 1) := by
  obtain ⟨h1, h2, h3⟩ := chunks_spec s e hse
  refine ⟨h1, h2, h3, ?_⟩
  intro hboundary
  have hmin1 : min (s + (MAX_DAYS_PER_REQUEST - 1)) e
      = s + (MAX_DAYS_PER_REQUEST - 1) :=
    min_eq_left (by simp only [MAX_DAYS_PER_REQUEST] at *; omega)
  have hs2 : s + (MAX_DAYS_PER_REQUEST - 1) + 1 ≤ e := by
    simp only [MAX_DAYS_PER_REQUEST] at *
    omega
  have hmin2 : min (s + (MAX_DAYS_PER_REQUEST - 1) + 1 +
      (MAX_DAYS_PER_REQUEST - 1)) e = e :=
    min_eq_right (by simp only [MAX_DAYS_PER_REQUEST] at *; omega)
  have hnil : chunks (e + 1) e = [] := chunks_neg (by omega)
  have hch : chunks s e = [(s, s + (MAX_DAYS_PER_REQUEST - 1)),
      (s + (MAX_DAYS_PER_REQUEST - 1) + 1, e)] := by
    rw [chunks_pos hse, hmin1, chunks_pos hs2, hmin2, hnil]
  rw [hch]
  refine ⟨?_, rfl, by omega⟩
  have : s + MAX_DAYS_PER_REQUEST = s + (MAX_DAYS_PER_REQUEST - 1) + 1 := by
    omega
  rw [this]

/-- Witness: the C8 theorem on the concrete range `[0, 365]` — one day
more than the 365-day maximum span. -/
theorem range_fetch_chunking_witness :
    (∀ c ∈ chunks 0 365, c.1 ≤ c.2 ∧
      c.2 - c.1 + 1 ≤ MAX_DAYS_PER_REQUEST) ∧
    (chunks 0 365).Chain' (fun c c' => c'.1 = c.2 + 1) ∧
    (∀ x : ℤ, ((0 : ℤ) ≤ x ∧ x ≤ 365) ↔
      ∃ c ∈ chunks 0 365, c.1 ≤ x ∧ x ≤ c.2) ∧
    ((365 : ℤ) - 0 = MAX_DAYS_PER_REQUEST →
      chunks 0 365 = [(0, 0 + (MAX_DAYS_PER_REQUEST - 1)),
        (0 + MAX_DAYS_PER_REQUEST, 365)] ∧
      (chunks 0 365).length = 2 ∧
      (0 : ℤ) + MAX_DAYS_PER_REQUEST =
        (0 + (MAX_DAYS_PER_REQUEST - 1)) + 1) :=
  range_fetch_chunking 0 365 (by decide)

theorem transform_source_seed (rates : List (String × ℚ)) (ds : String) :
    ∀ e ∈ transform_latest_to_seed rates ds, e.source = "seed" := by
  intro e he
  rcases List.mem_filterMap.1 he with ⟨s, hs, hmatch⟩
  cases h : dlookup (invert_rates rates) s with
  | none => rw [h] at hmatch; cases hmatch
  | some v =>
      rw [h] at hmatch
      cases hmatch
      rfl

theorem save15_cases (tree : Tree) (entries : List Entry) (date_obj : Date)
    (hs ms : String) (p : String) (l : List Entry)
    (h : (save_15min_file tree entries date_obj hs ms).1 p = some l) :
    tree p = some l ∨ l = entries := by
  unfold save_15min_file at h
  by_cases hex : (tree (min15Path date_obj hs ms)).isSome
  · rw [if_pos hex] at h
    exact Or.inl h
  · rw [if_neg hex] at h
    simp only at h
    by_cases hp : p = min15Path date_obj hs ms
    · rw [if_pos hp] at h
      exact Or.inr (Option.some.injEq .. ▸ h.symm)
    · rw [if_neg hp] at h
      exact Or.inl h

/-- C6, counterexample: the 15-minute snapshot written by a poll cycle
carries `source = "seed"` (the transform's tag), not `"hourly"` — only
the hourly writer re-tags its own copies. -/
theorem min15_record_source_is_seed_not_hourly :
    ∃ l, ((poll_once pollState₀ rates₀ ⟨2026, 1, 2⟩ 5 7).1).min15
        (min15Path ⟨2026, 1, 2⟩ (pad2 5) (pad2 7)) = some l ∧
      l.map Entry.source = ["seed"] ∧ ("seed" : String) ≠ "hourly" :=
  ⟨_, rfl, rfl, by decide⟩

/-- C6 (amended): every record the poll cycle writes into a 15-minute
cell carries `source = "seed"` — the provenance tag from the latest-rates
transform, unchanged at 15-minute write time. -/
theorem min15_written_source_seed (st : SysState)
    (rates : List (String × ℚ)) (today : Date) (hour minute : Nat)
    (p : String) (l : List Entry)
    (hnew : ((poll_once st rates today hour minute).1).min15 p = some l) :
    st.min15 p = some l ∨ ∀ e ∈ l, e.source = "seed" := by
  simp only [poll_once] at hnew
  split at hnew
  · exact Or.inl hnew
  · split at hnew
    · exact Or.inl hnew
    · have haux : (save_15min_file st.min15
          ((transform_latest_to_seed rates (dateStr today)).map (fun e =>
            { e with timestamp := dateStr today ++ " " ++ pad2 hour ++ ":"
                ++ pad2 minute ++ ":00" }))
          today (pad2 hour) (pad2 minute)).1 p = some l →
          st.min15 p = some l ∨ ∀ e ∈ l, e.source = "seed" := by
        intro hw
        rcases save15_cases _ _ _ _ _ _ _ hw with hc | hc
        · exact Or.inl hc
        · refine Or.inr (fun e he => ?_)
          subst hc
          rcases List.mem_map.1 he with ⟨e', he', rfl⟩
          exact transform_source_seed rates (dateStr today) e' he'
      split at hnew
      · split at hnew
        · exact haux hnew
        · exact haux hnew
      · exact haux hnew

/-- Witness: the amended C6 theorem at a concrete poll. -/
theorem min15_written_source_seed_witness :
    pollState₀.min15 (min15Path ⟨2026, 1, 2⟩ (pad2 5) (pad2 7)) =
        some ((transform_latest_to_seed rates₀ (dateStr ⟨2026, 1, 2⟩)).map
          (fun e => { e with timestamp := (dateStr ⟨2026, 1, 2⟩ ++ " "
            ++ pad2 5 ++ ":" ++ pad2 7 ++ ":00") })) ∨
      ∀ e ∈ (transform_latest_to_seed rates₀ (dateStr ⟨2026, 1, 2⟩)).map
          (fun e => { e with timestamp := (dateStr ⟨2026, 1, 2⟩ ++ " "
            ++ pad2 5 ++ ":" ++ pad2 7 ++ ":00") }),
        e.source = "seed" :=
  min15_written_source_seed pollState₀ rates₀ ⟨2026, 1, 2⟩ 5 7
    (min15Path ⟨2026, 1, 2⟩ (pad2 5) (pad2 7)) _ rfl

/-- C9: a daily-seed write happens in a poll cycle only when the poll's
UTC hour has reached `NOON_HOUR` and no record whose timestamp date
prefix equals today's date exists in this year's archive (determined by
scanning the archive's prefixes); and whenever it happens the merge
engine runs in additive, non-dry mode. -/
theorem daily_seed_write_gate (st : SysState) (rates : List (String × ℚ))
    (today : Date) (hour minute : Nat) (c : List Entry × Bool × Bool)
    (h : (poll_once st rates today hour minute).2 = some c) :
    NOON_HOUR ≤ hour ∧
    dateStr today ∉ (st.years (toString today.year)).map
      (fun e => strTake e.timestamp 10) ∧
    c.2.2 = false ∧ c.2.1 = false := by
  simp only [poll_once] at h
  split at h
  · cases h
  · split at h
    · cases h
    · split at h
      · rename_i hnoon
        split at h
        · cases h
        · rename_i hmem
          simp only [Option.some.injEq] at h
          subst h
          exact ⟨hnoon, hmem, rfl, rfl⟩
      · cases h

/-- Witness: the C9 theorem at a concrete noon-hour poll against an
empty archive. -/
theorem daily_seed_write_gate_witness :
    NOON_HOUR ≤ 17 ∧
    dateStr ⟨2026, 1, 2⟩ ∉
      (pollState₀.years (toString (2026 : Nat))).map
        (fun e => strTake e.timestamp 10) ∧
    ((transform_latest_to_seed rates₀ (dateStr ⟨2026, 1, 2⟩), false,
        false) : List Entry × Bool × Bool).2.2 = false ∧
    ((transform_latest_to_seed rates₀ (dateStr ⟨2026, 1, 2⟩), false,
        false) : List Entry × Bool × Bool).2.1 = false :=
  daily_seed_write_gate pollState₀ rates₀ ⟨2026, 1, 2⟩ 17 5
    (transform_latest_to_seed rates₀ (dateStr ⟨2026, 1, 2⟩), false, false)
    rfl

/-- C1, counterexample: starting from the duplicate-free empty archive, a
single additive merge whose input repeats one record leaves the 2026
archive holding two records that share the `(timestamp, metal)` key, so
the claimed invariant fails for arbitrary input lists. -/
theorem duplicate_key_after_duplicate_input :
    InvStore emptyStore ∧
    ((runCalls emptyStore [⟨[cexEntry, cexEntry], false, false⟩]) "2026").map
        Entry.key = [cexEntry.key, cexEntry.key] ∧
    ¬ ([cexEntry.key, cexEntry.key] : List (String × String)).Nodup := by
  refine ⟨fun y => by simp [emptyStore], by decide, by simp⟩

/-- C1 (amended): for every starting archive satisfying the
no-duplicate-key invariant, and every sequence of merge calls in which
each additive-mode call's input has pairwise-distinct `(timestamp, metal)`
keys (replacing-mode and dry-run calls are unrestricted), the archive of
every year satisfies the invariant after every call of the sequence. -/
theorem no_duplicate_keys_after_merge_sequence (store : YearStore)
    (calls : List MergeCall) (hInv : InvStore store)
    (h : ∀ c ∈ calls, c.overwrite = false →
      ((c.entries).map Entry.key).Nodup) :
    InvStore (runCalls store calls) := by
  induction calls generalizing store with
  | nil => exact hInv
  | cons c cs ih =>
      exact ih (runMerge store c.entries c.dry_run c.overwrite)
        (runMerge_preserves_inv _ _ _ _ hInv
          (fun ho => h c (List.mem_cons_self c cs) ho))
        (fun c' hc' ho => h c' (List.mem_cons_of_mem c hc') ho)

/-- Witness: the amended C1 theorem applied to a concrete archive and a
concrete two-call sequence (one additive, one replacing). -/
theorem no_duplicate_keys_after_merge_sequence_witness :
    InvStore (runCalls emptyStore
      [⟨[cexEntry], false, false⟩, ⟨[cexEntry], false, true⟩]) := by
  refine no_duplicate_keys_after_merge_sequence emptyStore _
    (fun y => by simp [emptyStore]) ?_
  intro c hc ho
  rcases List.mem_cons.1 hc with rfl | hc
  · simp
  · rcases List.mem_cons.1 hc with rfl | hc
    · simp
    · cases hc

end StakTrakr
